import Mathlib

/-!
Verification of the retrieval-to-context pipeline of the obsidian-vault-RAG
repository.

The development shallowly embeds the Python sources:
  - `src/rag/adapters/context_building/simple_context_builder.py`
  - `src/rag/retrieval.py`
  - `src/rag/adapters/vectorstores/jsonl_store.py`
  - `src/rag/utils/json_sanitize.py`
  - `src/rag/app/pipeline.py` and `ask.py`

Modelling conventions, used throughout:
  - Python numbers (floats) are modelled exactly: scores as rationals, and
    values produced by `math.sqrt` as real numbers.
  - Python `sorted` is modelled by a stable insertion sort (`pySort`);
    CPython `sorted` is stable, and any two stable sorts by the same key
    agree, so this is faithful.
  - Python dicts and JSON objects are modelled as association lists in
    insertion order (CPython dicts preserve insertion order).
  - Fallible Python code (raise) is modelled with `Option` / `Except`.
-/

/-- Model of a Python runtime value, covering the constructors that occur in
the persisted records, chunk metadata and model outputs of this repository
(`None`, `bool`, `int`, `float` — modelled exactly as a rational —, `str`,
`list`, `tuple`, `dict` with string keys). -/
inductive PyVal : Type where
  | none : PyVal
  | bool : Bool → PyVal
  | int : Int → PyVal
  | rat : ℚ → PyVal
  | str : String → PyVal
  | list : List PyVal → PyVal
  | tuple : List PyVal → PyVal
  | dict : List (String × PyVal) → PyVal
deriving Inhabited

mutual

/-- Structural equality test on `PyVal` (Python `==` for these values). -/
def PyVal.beq : PyVal → PyVal → Bool
  | .none, .none => true
  | .bool x, .bool y => x == y
  | .int x, .int y => x == y
  | .rat x, .rat y => x == y
  | .str x, .str y => x == y
  | .list xs, .list ys => PyVal.beqList xs ys
  | .tuple xs, .tuple ys => PyVal.beqList xs ys
  | .dict xs, .dict ys => PyVal.beqDict xs ys
  | _, _ => false

/-- Elementwise equality of value lists. -/
def PyVal.beqList : List PyVal → List PyVal → Bool
  | [], [] => true
  | x :: xs, y :: ys => PyVal.beq x y && PyVal.beqList xs ys
  | _, _ => false

/-- Elementwise equality of dict binding lists. -/
def PyVal.beqDict : List (String × PyVal) → List (String × PyVal) → Bool
  | [], [] => true
  | (k, v) :: xs, (k', v') :: ys =>
      k == k' && PyVal.beq v v' && PyVal.beqDict xs ys
  | _, _ => false

end

def PyVal.beqList_iff (xs ys : List PyVal)
    (ih : ∀ x ∈ xs, ∀ b, (PyVal.beq x b = true) ↔ x = b) :
    (PyVal.beqList xs ys = true) ↔ xs = ys := by
  induction xs generalizing ys with
  | nil => cases ys <;> simp [PyVal.beqList]
  | cons x t iht =>
      cases ys with
      | nil => simp [PyVal.beqList]
      | cons y u =>
          rw [PyVal.beqList]
          simp only [Bool.and_eq_true, List.cons.injEq]
          rw [ih x (by simp) y,
            iht u (fun z hz => ih z (List.mem_cons_of_mem x hz))]

def PyVal.beqDict_iff (xs ys : List (String × PyVal))
    (ih : ∀ p ∈ xs, ∀ b, (PyVal.beq p.2 b = true) ↔ p.2 = b) :
    (PyVal.beqDict xs ys = true) ↔ xs = ys := by
  induction xs generalizing ys with
  | nil => cases ys <;> simp [PyVal.beqDict]
  | cons x t iht =>
      cases ys with
      | nil => cases x; simp [PyVal.beqDict]
      | cons y u =>
          cases x with
          | mk k v =>
              cases y with
              | mk k' v' =>
                  rw [PyVal.beqDict]
                  simp only [Bool.and_eq_true, List.cons.injEq, Prod.mk.injEq,
                    beq_iff_eq, and_assoc]
                  rw [ih (k, v) (by simp) v',
                    iht u (fun z hz => ih z (List.mem_cons_of_mem (k, v) hz))]

def PyVal.beq_iff : ∀ (a b : PyVal), (PyVal.beq a b = true) ↔ a = b
  | .none, b => by cases b <;> simp [PyVal.beq]
  | .bool x, b => by cases b <;> simp [PyVal.beq]
  | .int x, b => by cases b <;> simp [PyVal.beq]
  | .rat x, b => by cases b <;> simp [PyVal.beq]
  | .str x, b => by cases b <;> simp [PyVal.beq]
  | .list xs, b => by
      cases b <;> simp only [PyVal.beq] <;>
        simp only [Bool.false_eq_true, false_iff, PyVal.list.injEq,
          reduceCtorEq, not_false_eq_true]
      exact PyVal.beqList_iff xs _ (fun x hx b => PyVal.beq_iff x b)
  | .tuple xs, b => by
      cases b <;> simp only [PyVal.beq] <;>
        simp only [Bool.false_eq_true, false_iff, PyVal.tuple.injEq,
          reduceCtorEq, not_false_eq_true]
      exact PyVal.beqList_iff xs _ (fun x hx b => PyVal.beq_iff x b)
  | .dict xs, b => by
      cases b <;> simp only [PyVal.beq] <;>
        simp only [Bool.false_eq_true, false_iff, PyVal.dict.injEq,
          reduceCtorEq, not_false_eq_true]
      exact PyVal.beqDict_iff xs _ (fun p hp b => PyVal.beq_iff p.2 b)
termination_by a _ => sizeOf a
decreasing_by
  · have h1 : sizeOf x < sizeOf xs := List.sizeOf_lt_of_mem hx
    simp only [PyVal.list.sizeOf_spec]
    omega
  · have h1 : sizeOf x < sizeOf xs := List.sizeOf_lt_of_mem hx
    simp only [PyVal.tuple.sizeOf_spec]
    omega
  · have h1 : sizeOf p < sizeOf xs := List.sizeOf_lt_of_mem hp
    have h2 : sizeOf p.2 < sizeOf p := by
      cases p with
      | mk k v => simp only [Prod.mk.sizeOf_spec]; omega
    simp only [PyVal.dict.sizeOf_spec]
    omega

instance : DecidableEq PyVal :=
  fun a b => decidable_of_iff _ (PyVal.beq_iff a b)

instance : BEq PyVal := ⟨PyVal.beq⟩

instance : LawfulBEq PyVal where
  eq_of_beq := fun h => (PyVal.beq_iff _ _).1 h
  rfl := fun {a} => (PyVal.beq_iff a a).2 rfl

/-- Python truthiness (`bool(x)`) for the modelled values: `None`, `0`,
empty strings and empty containers are falsy. -/
def pyTruthy : PyVal → Bool
  | .none => false
  | .bool b => b
  | .int n => !(n == 0)
  | .rat q => !(q == 0)
  | .str s => !(s == "")
  | .list xs => !xs.isEmpty
  | .tuple xs => !xs.isEmpty
  | .dict xs => !xs.isEmpty

/-- Python `x or y`: returns `x` when truthy, else `y`. -/
def pyOr (x y : PyVal) : PyVal := if pyTruthy x then x else y

/-- Python `d.get(k)` on a dict modelled as an association list (first
binding wins; real dicts have unique keys): returns `None` when absent. -/
def pyGet (m : List (String × PyVal)) (k : String) : PyVal :=
  match m.find? (fun p => p.1 == k) with
  | some p => p.2
  | Option.none => PyVal.none

/-- Python `{**m, k: v}` — replace the value of `k` in place if present,
else append the binding. -/
def pyDictSet (m : List (String × PyVal)) (k : String) (v : PyVal) :
    List (String × PyVal) :=
  match m with
  | [] => [(k, v)]
  | (k', v') :: rest =>
      if k' == k then (k', v) :: rest else (k', v') :: pyDictSet rest k v

mutual

/-- Python `repr` for the modelled values (string escaping inside `repr` of
nested strings is simplified to plain quoting; no claim depends on it). -/
def pyRepr : PyVal → String
  | .none => "None"
  | .bool true => "True"
  | .bool false => "False"
  | .int n => toString n
  | .rat q => toString q
  | .str s => "\x27" ++ s ++ "\x27"
  | .list xs => "[" ++ pyReprSeq xs ++ "]"
  | .tuple xs => "(" ++ pyReprSeq xs ++ (if xs.length == 1 then ",)" else ")")
  | .dict xs => "\x7b" ++ pyReprDict xs ++ "\x7d"

/-- Comma-separated `repr` of a sequence of values. -/
def pyReprSeq : List PyVal → String
  | [] => ""
  | [x] => pyRepr x
  | x :: y :: xs => pyRepr x ++ ", " ++ pyReprSeq (y :: xs)

/-- Comma-separated `repr` of the bindings of a dict. -/
def pyReprDict : List (String × PyVal) → String
  | [] => ""
  | [(k, v)] => "\x27" ++ k ++ "\x27: " ++ pyRepr v
  | (k, v) :: p :: xs =>
      "\x27" ++ k ++ "\x27: " ++ pyRepr v ++ ", " ++ pyReprDict (p :: xs)

end

/-- Python `str(x)`: identity on strings, `repr` otherwise (which agrees
with `str` on the modelled scalar and container types). -/
def pyStr : PyVal → String
  | .str s => s
  | v => pyRepr v

/-! ## Stable sorting, modelling Python `sorted`

`pySort before l` is an insertion sort that places `x` in front of the
first element `y` it does not have to yield to (`before y x = false`).
Processing the input back to front makes the sort stable: an element never
jumps over an earlier element with an equal key.  CPython `sorted` is
stable, and `sorted(l, key=k)` equals `pySort (fun a b => k a < k b) l`,
while `sorted(l, key=k, reverse=True)` (reversed comparisons, still
stable) equals `pySort (fun a b => k b < k a) l`. -/

/-- One insertion step of the stable sort: walk past every element that
strictly precedes `x`, then place `x`. -/
def pyInsert {α : Type} (before : α → α → Bool) (x : α) : List α → List α
  | [] => [x]
  | y :: l => if before y x then y :: pyInsert before x l else x :: y :: l

/-- Stable insertion sort; `before a b = true` means `a` must come
strictly before `b`. -/
def pySort {α : Type} (before : α → α → Bool) : List α → List α
  | [] => []
  | x :: xs => pyInsert before x (pySort before xs)

/-- Python `sorted(l, key=k)`: stable, ascending by key. -/
def pySortKey {α K : Type} [LinearOrder K] (k : α → K) (l : List α) :
    List α :=
  pySort (fun a b => decide (k a < k b)) l

/-- Python `sorted(l, key=k, reverse=True)`: stable, descending by key. -/
def pySortKeyDesc {α K : Type} [LinearOrder K] (k : α → K) (l : List α) :
    List α :=
  pySort (fun a b => decide (k b < k a)) l

/-! ## Domain model (`src/rag/domain/models.py`)

Scores are Python floats; they are modelled by an arbitrary linearly
ordered type `K` (instantiated at `ℚ` for exact decimal scores and at `ℝ`
where scores come out of `math.sqrt`). -/

/-- `Chunk` of `src/rag/domain/models.py`: a piece of a document used for
embedding and retrieval. -/
structure Chunk : Type where
  chunk_id : String
  doc_id : String
  text : String
  chunk_index : Int
  start_char : Option Int
  end_char : Option Int
  section_heading : Option String
  section_path : Option String
  language : Option String
  metadata : List (String × PyVal)
deriving DecidableEq, Inhabited

/-- `Candidate` of `src/rag/domain/models.py`: a retrieved chunk plus a
retrieval score and an optional rerank score. -/
structure Candidate (K : Type) : Type where
  chunk : Chunk
  score : K
  rerank_score : Option K
  debug : List (String × PyVal)
deriving DecidableEq

/-- `Citation` of `src/rag/domain/models.py`.  The `metadata` dict written
by the context builder always has exactly the two keys `rank` and `score`;
it is modelled by the two dedicated fields `metadata_rank` and
`metadata_score`. -/
structure Citation (K : Type) : Type where
  chunk_id : String
  doc_id : String
  uri : String
  quote : Option String
  section_heading : Option String
  section_path : Option String
  start_char : Option Int
  end_char : Option Int
  metadata_rank : ℕ
  metadata_score : K
deriving DecidableEq

/-- `ContextPack` of `src/rag/domain/models.py`: the final evidence set
handed to the generator. -/
structure ContextPack (K : Type) : Type where
  query : String
  chunks : List Chunk
  rendered_context : String
  citations : List (Citation K)
  token_budget : ℕ
  metadata : List (String × PyVal)
deriving DecidableEq

/-! ## Context assembler
(`src/rag/adapters/context_building/simple_context_builder.py`) -/

/-- `_estimate_tokens`: `max(1, len(text) // 4)`. -/
def _estimate_tokens (text : String) : ℕ :=
  max 1 (text.length / 4)

/-- `_normalize_for_dedupe`: `" ".join(text.lower().split())` (Python
`str.split()` splits on whitespace runs and drops empty pieces). -/
def _normalize_for_dedupe (text : String) : String :=
  String.intercalate " "
    ((text.toLower.split Char.isWhitespace).filter (fun s => !(s == "")))

/-- Configuration fields of the frozen dataclass `SimpleContextBuilder`. -/
structure SimpleContextBuilder (K : Type) : Type where
  min_score : Option K
  max_chunks : ℕ
  dedupe : Bool
  include_scores : Bool

/-- The dataclass defaults: `min_score=None, max_chunks=12, dedupe=True,
include_scores=False`. -/
def SimpleContextBuilder.default (K : Type) : SimpleContextBuilder K :=
  ⟨Option.none, 12, true, false⟩

/-- `candidate_key` inside `build`: prefer `rerank_score` when present,
else the retrieval `score`. -/
def candidate_key {K : Type} (c : Candidate K) : K :=
  c.rerank_score.getD c.score

/-- Mutable loop state of `build`: accepted chunks, their citations, the
set of seen dedupe signatures (as a list), and the running token count. -/
structure BuildState (K : Type) : Type where
  chosen : List Chunk
  citations : List (Citation K)
  seen : List String
  tokens_used : ℕ

/-- The label line built for the next accepted chunk
(`f"[{len(chosen)+1}]"`, optionally ` score=...`, then a newline).
Python formats the score with `%.4f`; this is modelled with `toString`,
which only affects the unexercised `include_scores = true` branch. -/
def buildLabel {K : Type} [ToString K] (cfg : SimpleContextBuilder K)
    (chosenCount : ℕ) (score : K) : String :=
  "[" ++ toString (chosenCount + 1) ++ "]" ++
    (if cfg.include_scores then " score=" ++ toString score else "") ++ "\n"

/-- The estimated token cost charged for a candidate: label plus chunk
text plus a blank-line separator. -/
def chunkCost {K : Type} [ToString K] (cfg : SimpleContextBuilder K)
    (chosenCount : ℕ) (score : K) (text : String) : ℕ :=
  _estimate_tokens (buildLabel cfg chosenCount score) +
    _estimate_tokens text + _estimate_tokens "\n\n"

/-- The citation appended for an accepted chunk (rank is the length of
`chosen` after the append). -/
def buildCitation {K : Type} (chunk : Chunk) (rank : ℕ) (score : K) :
    Citation K :=
  { chunk_id := chunk.chunk_id
    doc_id := chunk.doc_id
    uri := pyStr (pyOr (pyGet chunk.metadata "uri")
      (pyOr (pyGet chunk.metadata "source_uri") (PyVal.str "")))
    quote := some (if 240 < chunk.text.length then chunk.text.take 240
      else chunk.text)
    section_heading := chunk.section_heading
    section_path := chunk.section_path
    start_char := chunk.start_char
    end_char := chunk.end_char
    metadata_rank := rank
    metadata_score := score }

/-- The `for cand in ordered` loop of `build`: threshold, content dedupe,
budget check (`break` when the candidate does not fit), accept, stop at
`max_chunks`. -/
def buildLoop {K : Type} [LinearOrder K] [ToString K]
    (cfg : SimpleContextBuilder K) (token_budget : ℕ) :
    List (Candidate K) → BuildState K → BuildState K
  | [], st => st
  | cand :: rest, st =>
      let score := candidate_key cand
      if cfg.min_score.elim false (fun m => decide (score < m)) then
        buildLoop cfg token_budget rest st
      else
        let chunk := cand.chunk
        let sig := (_normalize_for_dedupe chunk.text).take 500
        if cfg.dedupe && st.seen.contains sig then
          buildLoop cfg token_budget rest st
        else
          let seen' := if cfg.dedupe then sig :: st.seen else st.seen
          let cost := chunkCost cfg st.chosen.length score chunk.text
          if token_budget < st.tokens_used + cost then st
          else
            let chosen' := st.chosen ++ [chunk]
            let st' : BuildState K :=
              { chosen := chosen'
                citations := st.citations ++
                  [buildCitation chunk chosen'.length score]
                seen := seen'
                tokens_used := st.tokens_used + cost }
            if cfg.max_chunks ≤ chosen'.length then st'
            else buildLoop cfg token_budget rest st'

/-- One numbered block of `_render_context`: rank label, optional
provenance line, stripped text, blank line. -/
def renderChunkLines : ℕ → List Chunk → List String
  | _, [] => []
  | i, ch :: rest =>
      let title := pyGet ch.metadata "title"
      let uri := pyOr (pyGet ch.metadata "uri") (pyGet ch.metadata "source_uri")
      ("[" ++ toString i ++ "]") ::
        ((if pyTruthy title || pyTruthy uri then
            [("Source: " ++ pyStr (pyOr title (PyVal.str "")) ++ " " ++
              pyStr (pyOr uri (PyVal.str ""))).trim]
          else []) ++
         (ch.text.trim :: "" :: renderChunkLines (i + 1) rest))

/-- `SimpleContextBuilder._render_context` (its `ordered_scores` parameter
is unused in the source as well). -/
def _render_context {K : Type} (_cfg : SimpleContextBuilder K)
    (chunks : List Chunk) (_ordered_scores : Option (List (Candidate K))) :
    String :=
  (String.intercalate "\n"
    ("You are given CONTEXT chunks from a document corpus. Answer the QUESTION using only the CONTEXT.\n" ::
     "If the answer is not supported by the CONTEXT, say you don\x27t know.\n" ::
     "CONTEXT:\n" ::
     renderChunkLines 1 chunks)).trim ++ "\n"

/-- `SimpleContextBuilder.build`: sort by `candidate_key` descending
(stable), charge the `"Context:\n"` header, run the packing loop, render,
and record `tokens_used_est` in the pack metadata. -/
def SimpleContextBuilder.build {K : Type} [LinearOrder K] [ToString K]
    (cfg : SimpleContextBuilder K) (query : String)
    (candidates : List (Candidate K)) (token_budget : ℕ)
    (metadata : List (String × PyVal)) : ContextPack K :=
  let ordered := pySortKeyDesc candidate_key candidates
  let header_tokens := _estimate_tokens "Context:\n"
  let final := buildLoop cfg token_budget ordered
    { chosen := [], citations := [], seen := [], tokens_used := header_tokens }
  { query := query
    chunks := final.chosen
    rendered_context := _render_context cfg final.chosen
      (if cfg.include_scores then some (ordered.take final.chosen.length)
       else Option.none)
    citations := final.citations
    token_budget := token_budget
    metadata := pyDictSet metadata "tokens_used_est"
      (PyVal.int final.tokens_used) }


/-! ## Retrieval stage (`src/rag/retrieval.py`)

This module operates on LlamaIndex `NodeWithScore` values; they are
modelled with the fields the repository reads.  The recursive
`getattr(n.node, "text", None) or n.node.get_content()` accessor is
collapsed to the single `text` field. -/

/-- The slice of a LlamaIndex `TextNode` that the repository reads:
`node_id`, the text body and the metadata dict. -/
structure TextNode : Type where
  node_id : String
  text : String
  metadata : List (String × PyVal)
deriving DecidableEq, Inhabited

/-- LlamaIndex `NodeWithScore`: a node plus an optional retrieval score
(a float, modelled as `Option ℚ`). -/
structure NodeWithScore : Type where
  node : TextNode
  score : Option ℚ
deriving DecidableEq, Inhabited

/-- The sort key `(n.score is None, -(n.score or 0.0))` used throughout
`retrieval.py` and `ask.py`: ascending lexicographic order on this pair is
descending by score with null scores last. -/
def scoreSortKey (n : NodeWithScore) : Bool ×ₗ ℚ :=
  toLex (n.score.isNone, -(n.score.getD 0))

/-- `sorted(nodes, key=lambda n: (n.score is None, -(n.score or 0.0)))`:
stable sort, best score first, null scores last. -/
def sortByScore (nodes : List NodeWithScore) : List NodeWithScore :=
  pySortKey scoreSortKey nodes

/-- The score-sorted truncation `sorted(candidates, key=...)[:keep_k]`
that `retrieval.py` uses as the deterministic fallback of `mmr_select`
and `llm_rerank`. -/
def scoreSortedTruncate (candidates : List NodeWithScore) (keep_k : ℕ) :
    List NodeWithScore :=
  (sortByScore candidates).take keep_k

/-- The provenance key of `dedupe_by_source`:
`meta.get(key) or f"__missing__::{node_id}"` — a falsy metadata value
(absent key, `None`, empty string) falls back to a synthetic key built
from the node id. -/
def nodeKey (key : String) (n : NodeWithScore) : PyVal :=
  pyOr (pyGet n.node.metadata key)
    (PyVal.str ("__missing__::" ++ n.node.node_id))

/-- One step of filling the `best` dict of `dedupe_by_source`: first
binding per key wins, insertion order preserved (CPython dict). -/
def dedupeInsert (key : String) (best : List (PyVal × NodeWithScore))
    (n : NodeWithScore) : List (PyVal × NodeWithScore) :=
  if (best.map Prod.fst).contains (nodeKey key n) then best
  else best ++ [(nodeKey key n, n)]

/-- `dedupe_by_source` of `src/rag/retrieval.py`: sort by score descending
(nulls last), keep the first node seen per provenance key, return the dict
values in insertion order. -/
def dedupe_by_source (nodes : List NodeWithScore) (key : String) :
    List NodeWithScore :=
  ((sortByScore nodes).foldl (dedupeInsert key) []).map Prod.snd

/-- Modelled from the spec: keep the first candidate per provenance key,
preserving the order of first occurrence (direct recursion, no dict). -/
def keepFirstByKey (key : String) (seen : List PyVal) :
    List NodeWithScore → List NodeWithScore
  | [] => []
  | n :: rest =>
      if seen.contains (nodeKey key n) then keepFirstByKey key seen rest
      else n :: keepFirstByKey key (nodeKey key n :: seen) rest

/-- Modelled from the spec (§4.3): sort descending by score (nulls last),
then retain the first candidate per key in order of first occurrence.
`dedupe_by_source` is proved equal to this. -/
def dedupeSpec (nodes : List NodeWithScore) (key : String) :
    List NodeWithScore :=
  keepFirstByKey key [] (sortByScore nodes)

/-- `_cosine` of `src/rag/retrieval.py`: dot product over the product of
L2 norms, `0.0` when either norm is zero.  Python float arithmetic is
idealised as real arithmetic (`math.sqrt` returns a real). -/
noncomputable def retrievalCosine (a b : List ℚ) : ℝ :=
  let dot : ℝ := ((List.zipWith (fun x y => x * y) a b).sum : ℚ)
  let na : ℝ := Real.sqrt (((a.map (fun x => x * x)).sum : ℚ))
  let nb : ℝ := Real.sqrt (((b.map (fun x => x * x)).sum : ℚ))
  if na = 0 ∨ nb = 0 then 0 else dot / (na * nb)

/-- Python `max()` over a list (the source only calls it on nonempty
generators; the `[]` case is junk). -/
noncomputable def pyListMax : List ℝ → ℝ
  | [] => 0
  | x :: xs => xs.foldl max x

/-- The MMR objective of one inner-loop iteration:
`lambda_mult * sim_q[i] - (1 - lambda_mult) * div`, where `div` is the
maximum similarity of `i` to any already-selected index (`0.0` when
nothing is selected yet). -/
noncomputable def mmrValue (lam : ℝ) (simq : ℕ → ℝ) (simm : ℕ → ℕ → ℝ)
    (selected : List ℕ) (i : ℕ) : ℝ :=
  lam * simq i -
    (1 - lam) *
      (if selected.isEmpty then 0
       else pyListMax (selected.map (fun j => simm i j)))

/-- The `for i in list(remaining): if val > best_val` scan: fold over the
remaining indices (CPython iterates a set of small ints in ascending
order), keeping the first index that strictly improves the running best
value. -/
noncomputable def mmrScanBest (val : ℕ → ℝ) :
    List ℕ → Option ℕ × ℝ → Option ℕ × ℝ
  | [], acc => acc
  | i :: rest, (bi, bv) =>
      if bv < val i then mmrScanBest val rest (some i, val i)
      else mmrScanBest val rest (bi, bv)

/-- The `while remaining and len(selected) < min(k, n)` loop of
`mmr_select`: the fuel argument is `min k n` minus the number selected so
far; the scan starts from `best_i = None`, `best_val = -1e9`.  The
`Option.none` branch of the scan corresponds to the `assert` in the
source (unreachable for similarity values in `[-1, 1]`). -/
noncomputable def mmrLoop (lam : ℝ) (simq : ℕ → ℝ) (simm : ℕ → ℕ → ℝ) :
    ℕ → List ℕ → List ℕ → List ℕ
  | 0, _, selected => selected
  | _ + 1, [], selected => selected
  | fuel + 1, r :: rs, selected =>
      match (mmrScanBest (mmrValue lam simq simm selected) (r :: rs)
          (Option.none, -((10 : ℝ) ^ (9 : ℕ)))).1 with
      | some i =>
          mmrLoop lam simq simm fuel ((r :: rs).erase i) (selected ++ [i])
      | Option.none => selected

/-- `sim_q` of `mmr_select`: the cosine similarity of the query embedding
to the `i`-th node-text embedding (node texts are truncated to 2000
characters before embedding, as in the source). -/
noncomputable def simqOf (em : String → List ℚ) (query : String)
    (candidates : List NodeWithScore) : ℕ → ℝ :=
  fun i => retrievalCosine (em query)
    ((candidates.map (fun n => em (n.node.text.take 2000))).getD i [])

/-- The pairwise cosine similarity of node-text embeddings used by the
diversity penalty of `mmr_select`. -/
noncomputable def simmOf (em : String → List ℚ)
    (candidates : List NodeWithScore) : ℕ → ℕ → ℝ :=
  fun i j => retrievalCosine
    ((candidates.map (fun n => em (n.node.text.take 2000))).getD i [])
    ((candidates.map (fun n => em (n.node.text.take 2000))).getD j [])

/-- `mmr_select` of `src/rag/retrieval.py`.  The ambient
`Settings.embed_model` global is modelled as the explicit `embed`
argument (`Option.none` models an unconfigured embedding model). -/
noncomputable def mmr_select (embed : Option (String → List ℚ))
    (query : String) (candidates : List NodeWithScore) (k : ℕ)
    (lambda_mult : ℝ) : List NodeWithScore :=
  if candidates.isEmpty || k == 0 then []
  else
    match embed with
    | Option.none => scoreSortedTruncate candidates k
    | some em =>
        let sel := mmrLoop lambda_mult (simqOf em query candidates)
          (simmOf em candidates) (min k candidates.length)
          (List.range candidates.length) []
        sel.map (fun i => candidates.getD i default)

/-- The earliest index attaining the maximum value (ties go to the
earlier list position); `Option.none` only on the empty list. -/
noncomputable def argmaxE (val : ℕ → ℝ) : List ℕ → Option ℕ
  | [] => Option.none
  | i :: rest =>
      match argmaxE val rest with
      | Option.none => some i
      | some m => if val i < val m then some m else some i

/-- Modelled from the spec (§4.4): pick the unselected candidate with the
largest MMR value, breaking ties by the earliest original index — the
first element of the ascending remaining list attaining the maximum. -/
noncomputable def specPick (val : ℕ → ℝ) (rem : List ℕ) : Option ℕ :=
  rem.find? (fun i => decide (∀ j ∈ rem, val j ≤ val i))

/-- Modelled from the spec (§4.4): the greedy MMR selection loop, written
with the argmax-with-earliest-tie pick instead of the running-best scan.
`mmrLoop` is proved equal to this. -/
noncomputable def mmrSpecLoop (lam : ℝ) (simq : ℕ → ℝ)
    (simm : ℕ → ℕ → ℝ) : ℕ → List ℕ → List ℕ → List ℕ
  | 0, _, sel => sel
  | _ + 1, [], sel => sel
  | fuel + 1, r :: rs, sel =>
      match specPick (mmrValue lam simq simm sel) (r :: rs) with
      | some i =>
          mmrSpecLoop lam simq simm fuel ((r :: rs).erase i) (sel ++ [i])
      | Option.none => sel

/-! ## LLM reranker (`llm_rerank` of `src/rag/retrieval.py`)

The external collaborators are explicit arguments: `loads` models
`json.loads` (returning `Option.none` where Python raises
`JSONDecodeError`), `dumps` models `json.dumps` on the preview items (its
output only feeds the prompt), and `llm` models `Settings.llm`, whose
`complete` call may raise (`Except.error`). -/

/-- One candidate preview sent to the reranking model (`section_label`
models the `"section"` dict key, a Lean keyword). -/
structure RerankItem : Type where
  i : ℕ
  file : PyVal
  section_label : PyVal
  preview : String

/-- The preview items of `llm_rerank`. -/
def rerankItems (candidates : List NodeWithScore) (preview_chars : ℕ) :
    List RerankItem :=
  candidates.enum.map (fun p =>
    { i := p.1
      file := pyGet p.2.node.metadata "file_name"
      section_label := pyGet p.2.node.metadata "section_heading"
      preview := p.2.node.text.take preview_chars })

/-- The prompt string of `llm_rerank`. -/
def rerankPrompt (dumps : List RerankItem → String) (query : String)
    (items : List RerankItem) : String :=
  "You are reranking retrieval chunks for a RAG system.\n" ++
    "Given a user query and a list of chunks, return JSON: " ++
    "\x7b\"ranked\": [indices...]\x7d with the most relevant first.\n" ++
    "Do not include any extra keys.\n\n" ++
    "Query:\n" ++ query ++ "\n\n" ++
    "Chunks:\n" ++ dumps items ++ "\n"

/-- The character `\x7b` (opening curly brace). -/
def braceOpen : Char := Char.ofNat 123

/-- The character `\x7d` (closing curly brace). -/
def braceClose : Char := Char.ofNat 125

/-- `re.search(r"\x7b.*\x7d", raw, re.DOTALL)`: with a greedy `.*` and
DOTALL this matches from the first opening brace to the last closing
brace, provided the latter comes after the former; `Option.none` models a
failed search. -/
def extractJsonSpan (raw : String) : Option String :=
  let cs := raw.toList
  match cs.findIdx? (fun c => c == braceOpen) with
  | Option.none => Option.none
  | some i =>
      let tail := cs.drop i
      match tail.reverse.findIdx? (fun c => c == braceClose) with
      | Option.none => Option.none
      | some rj =>
          let j := tail.length - 1 - rj
          if 1 ≤ j then some (String.mk (tail.take (j + 1)))
          else Option.none

/-- Python `int(s)` on a nonempty all-digit string. -/
def pyDigitVal (s : String) : ℤ :=
  s.foldl (fun acc c => acc * 10 + ((c.toNat - 48 : ℕ) : ℤ)) 0

/-- The element filter-and-cast
`int(x) for x in ranked if isinstance(x, int) or (isinstance(x, str) and x.isdigit())`;
Python `bool` is an `int` subclass, hence the `.bool` case. -/
def coerceIdx : PyVal → Option ℤ
  | .int n => some n
  | .bool b => some (if b then 1 else 0)
  | .str s =>
      if s ≠ "" ∧ s.toList.all Char.isDigit then some (pyDigitVal s)
      else Option.none
  | _ => Option.none

/-- Iterating `ranked` in the comprehension: a JSON array yields its
elements, a string yields its one-character substrings, a dict yields its
keys; a non-iterable value raises `TypeError` (`Option.none`), which the
surrounding `except` turns into the fallback. -/
def rankedInts : PyVal → Option (List ℤ)
  | .list xs => some (xs.filterMap coerceIdx)
  | .tuple xs => some (xs.filterMap coerceIdx)
  | .str s => some (s.toList.filterMap (fun c =>
      if c.isDigit then some ((c.toNat - 48 : ℕ) : ℤ) else Option.none))
  | .dict xs => some (xs.filterMap (fun p => coerceIdx (PyVal.str p.1)))
  | _ => Option.none

/-- The `seen`/`ordered` dedupe of `llm_rerank`: keep the first
occurrence of each index, preserving the model order. -/
def dedupFirst : List ℤ → List ℤ → List ℤ
  | [], _ => []
  | i :: rest, seen =>
      if seen.contains i then dedupFirst rest seen
      else i :: dedupFirst rest (i :: seen)

/-- `obj.get("ranked", [])`: the `ranked` field of the parsed object,
defaulting to the empty list. -/
def rankedField (m : List (String × PyVal)) : PyVal :=
  match m.find? (fun p => p.1 == "ranked") with
  | some p => p.2
  | Option.none => PyVal.list []

/-- The parsing-and-validation tail of `llm_rerank`, starting from the raw
model text: extract a JSON span, parse it, read `"ranked"` (default `[]`),
cast and range-filter the indices, dedupe keeping first occurrences, and
truncate to `keep_k`; every failure path inside returns the score-sorted
fallback. -/
def rerankParse (loads : String → Option PyVal) (raw : String)
    (candidates : List NodeWithScore) (keep_k : ℕ) : List NodeWithScore :=
  match extractJsonSpan raw with
  | Option.none => scoreSortedTruncate candidates keep_k
  | some s =>
      match loads s with
      | Option.none => scoreSortedTruncate candidates keep_k
      | some obj =>
          match obj with
          | .dict m =>
              match rankedInts (rankedField m) with
              | Option.none => scoreSortedTruncate candidates keep_k
              | some zs =>
                  let zs2 := zs.filter
                    (fun i => decide (0 ≤ i) &&
                      decide (i < (candidates.length : ℤ)))
                  if zs2.isEmpty then scoreSortedTruncate candidates keep_k
                  else ((dedupFirst zs2 []).map
                    (fun i => candidates.getD i.toNat default)).take keep_k
          | _ => scoreSortedTruncate candidates keep_k

/-- `llm_rerank` of `src/rag/retrieval.py`.  Note: `llm.complete(prompt)`
is called before the `try` block, so an exception from the model call
propagates (`Except.error`) instead of producing the fallback. -/
def llm_rerank (loads : String → Option PyVal)
    (dumps : List RerankItem → String)
    (llm : Option (String → Except Unit String)) (query : String)
    (candidates : List NodeWithScore) (keep_k : ℕ) (preview_chars : ℕ) :
    Except Unit (List NodeWithScore) :=
  if candidates.isEmpty || keep_k == 0 then Except.ok []
  else
    match llm with
    | Option.none => Except.ok (scoreSortedTruncate candidates keep_k)
    | some llmFn =>
        let items := rerankItems candidates preview_chars
        match llmFn (rerankPrompt dumps query items) with
        | Except.error e => Except.error e
        | Except.ok raw => Except.ok (rerankParse loads raw candidates keep_k)


/-! ## JSONL vector store
(`src/rag/adapters/vectorstores/jsonl_store.py`) -/

namespace JsonlStore

/-- `_dot`: `sum(x * y for x, y in zip(a, b))` (zip stops at the shorter
list). -/
def _dot (a b : List ℚ) : ℚ :=
  (List.zipWith (fun x y => x * y) a b).sum

/-- The radicand `sum(x * x for x in a)` of `_norm`. -/
def normSq (a : List ℚ) : ℚ :=
  (a.map (fun x => x * x)).sum

/-- `_norm`: `sqrt(sum(x * x for x in a)) or 1.0` — a zero square root
(falsy float) is replaced by `1.0`. -/
noncomputable def _norm (a : List ℚ) : ℝ :=
  if Real.sqrt (normSq a) = 0 then 1 else Real.sqrt (normSq a)

/-- `_cosine`: dot product over the product of `_norm`s. -/
noncomputable def _cosine (a b : List ℚ) : ℝ :=
  (_dot a b : ℝ) / (_norm a * _norm b)

end JsonlStore

/-- The in-memory state of `JsonlVectorStore`: the parallel `_chunks` and
`_vectors` lists (the `path` field locates the backing file, an external
file-system concern outside the embedding). -/
structure JsonlVectorStore : Type where
  chunks : List Chunk
  vectors : List (List ℚ)
deriving DecidableEq

namespace JsonlStore

/-- The `allowed` metadata filter inside `search`: every filter key must
be present and map to exactly the filter value
(`c.metadata.get(k) != v` excludes; an empty filter mapping allows all). -/
def allowedBy (filters : List (String × PyVal)) (c : Chunk) : Bool :=
  filters.all (fun p => pyGet c.metadata p.1 == p.2)

/-- `JsonlVectorStore.search`: score every filter-allowed chunk by cosine
similarity to the query vector, sort descending by score (Python
`list.sort(key=..., reverse=True)` is stable), and keep the first
`top_k`. -/
noncomputable def search (store : JsonlVectorStore)
    (query_vector : List ℚ) (top_k : ℕ)
    (filters : List (String × PyVal)) : List (Candidate ℝ) :=
  let scored :=
    ((store.chunks.zip store.vectors).filter
      (fun p => allowedBy filters p.1)).map
      (fun p => Candidate.mk p.1 (_cosine query_vector p.2) Option.none [])
  (pySortKeyDesc (fun c => c.score) scored).take top_k

/-- The filtered, cosine-scored candidate pool that `search` builds
before sorting (named so the specification can quantify over it). -/
noncomputable def searchPool (store : JsonlVectorStore) (qv : List ℚ)
    (filters : List (String × PyVal)) : List (Candidate ℝ) :=
  ((store.chunks.zip store.vectors).filter
    (fun p => allowedBy filters p.1)).map
    (fun p => Candidate.mk p.1 (_cosine qv p.2) Option.none [])

/-- `JsonlVectorStore.upsert`: validate that the two sequences have equal
length (raising `ValueError` otherwise, before any mutation), then append
them. -/
def upsert (store : JsonlVectorStore) (chunks : List Chunk)
    (vectors : List (List ℚ)) : Except String JsonlVectorStore :=
  if chunks.length ≠ vectors.length then
    Except.error "chunks and vectors must have the same length"
  else Except.ok ⟨store.chunks ++ chunks, store.vectors ++ vectors⟩

/-- `JsonlVectorStore.count`. -/
def count (store : JsonlVectorStore) : ℕ := store.chunks.length

end JsonlStore

/-! ## JSON sanitizing and persistence
(`src/rag/utils/json_sanitize.py` and the `save`/`load` pair) -/

mutual

/-- `json_sanitize` of `src/rag/utils/json_sanitize.py`, on the modelled
value constructors: scalars pass through, tuples become lists, lists and
dicts are sanitized recursively.  (The `datetime`/`Path`/`set` branches
concern constructors outside the `PyVal` model; dict keys are already
strings here, so `str(k)` is the identity.) -/
def json_sanitize : PyVal → PyVal
  | .none => .none
  | .bool b => .bool b
  | .int n => .int n
  | .rat q => .rat q
  | .str s => .str s
  | .list xs => .list (json_sanitizeList xs)
  | .tuple xs => .list (json_sanitizeList xs)
  | .dict xs => .dict (json_sanitizeDict xs)

/-- Recursive sanitizing of list elements. -/
def json_sanitizeList : List PyVal → List PyVal
  | [] => []
  | x :: xs => json_sanitize x :: json_sanitizeList xs

/-- Recursive sanitizing of dict values. -/
def json_sanitizeDict : List (String × PyVal) → List (String × PyVal)
  | [] => []
  | (k, v) :: xs => (k, json_sanitize v) :: json_sanitizeDict xs

end

/-- A value already in JSON-safe form: sanitizing is the identity on it. -/
def JsonSafe (v : PyVal) : Prop := json_sanitize v = v

/-- `None` ↦ `null`, `some s` ↦ the string, for `_chunk_to_dict`. -/
def optStrVal : Option String → PyVal
  | Option.none => PyVal.none
  | some s => PyVal.str s

/-- `None` ↦ `null`, `some n` ↦ the integer, for `_chunk_to_dict`. -/
def optIntVal : Option Int → PyVal
  | Option.none => PyVal.none
  | some n => PyVal.int n

/-- `_chunk_to_dict` of `jsonl_store.py`. -/
def _chunk_to_dict (ch : Chunk) : PyVal :=
  PyVal.dict
    [("chunk_id", PyVal.str ch.chunk_id),
     ("doc_id", PyVal.str ch.doc_id),
     ("text", PyVal.str ch.text),
     ("chunk_index", PyVal.int ch.chunk_index),
     ("start_char", optIntVal ch.start_char),
     ("end_char", optIntVal ch.end_char),
     ("section_heading", optStrVal ch.section_heading),
     ("section_path", optStrVal ch.section_path),
     ("language", optStrVal ch.language),
     ("metadata", PyVal.dict ch.metadata)]

/-- Reads a required string field (`str(d[k])`; the `str()` coercion of a
non-string value never arises from `_chunk_to_dict` output and is outside
the typed model). -/
def reqStr (m : List (String × PyVal)) (k : String) : Option String :=
  match m.find? (fun p => p.1 == k) with
  | some ⟨_, PyVal.str s⟩ => some s
  | _ => Option.none

/-- Reads a required int field (`int(d[k])`). -/
def reqInt (m : List (String × PyVal)) (k : String) : Option Int :=
  match m.find? (fun p => p.1 == k) with
  | some ⟨_, PyVal.int n⟩ => some n
  | _ => Option.none

/-- Reads an optional int field (`d.get(k)` assigned untyped; a value of
any other non-null type would be stored as-is by the untyped Python
dataclass and falls outside the typed `Chunk` model). -/
def optIntField (m : List (String × PyVal)) (k : String) :
    Option (Option Int) :=
  match pyGet m k with
  | PyVal.none => some Option.none
  | PyVal.int n => some (some n)
  | _ => Option.none

/-- Reads an optional string field (`d.get(k)`). -/
def optStrField (m : List (String × PyVal)) (k : String) :
    Option (Option String) :=
  match pyGet m k with
  | PyVal.none => some Option.none
  | PyVal.str s => some (some s)
  | _ => Option.none

/-- Reads the metadata field: `d.get("metadata", \x7b\x7d) or \x7b\x7d` —
missing or falsy values give the empty dict; a truthy non-dict value is
outside the typed model. -/
def metaField (m : List (String × PyVal)) :
    Option (List (String × PyVal)) :=
  match m.find? (fun p => p.1 == "metadata") with
  | Option.none => some []
  | some p =>
      if pyTruthy p.2 then
        match p.2 with
        | PyVal.dict xs => some xs
        | _ => Option.none
      else some []

/-- `_chunk_from_dict` of `jsonl_store.py` (`Option.none` models the
`KeyError`/type failures Python would raise or store untyped). -/
def _chunk_from_dict (d : PyVal) : Option Chunk :=
  match d with
  | PyVal.dict m => do
      let cid ← reqStr m "chunk_id"
      let did ← reqStr m "doc_id"
      let text ← reqStr m "text"
      let cidx ← reqInt m "chunk_index"
      let sc ← optIntField m "start_char"
      let ec ← optIntField m "end_char"
      let sh ← optStrField m "section_heading"
      let sp ← optStrField m "section_path"
      let lang ← optStrField m "language"
      let md ← metaField m
      some ⟨cid, did, text, cidx, sc, ec, sh, sp, lang, md⟩
  | _ => Option.none

/-- `JsonlVectorStore.save`, modelled at the JSON-value level: the
sequence of sanitized `{"chunk": ..., "vector": ...}` rows written to the
file, one per line.  (`json.dumps`, the temp file and the atomic replace
are file-system externals; `json.dumps`/`json.loads` round-trips a
JSON-safe value, so `load` consumes exactly these values.) -/
def storeSave (store : JsonlVectorStore) : List PyVal :=
  (store.chunks.zip store.vectors).map (fun p =>
    json_sanitize (PyVal.dict
      [("chunk", _chunk_to_dict p.1),
       ("vector", PyVal.list (p.2.map PyVal.rat))]))

/-- `list(row["vector"])` with float components: a non-list value or a
non-float component is outside what `save` writes (`Option.none`). -/
def vecFromVals : List PyVal → Option (List ℚ)
  | [] => some []
  | PyVal.rat q :: xs => (vecFromVals xs).map (fun v => q :: v)
  | _ => Option.none

/-- One row of `JsonlVectorStore.load`: read `row["chunk"]` and
`row["vector"]` (KeyError and non-float vector entries are `Option.none`;
vector components written by `save` are always floats). -/
def loadRow (row : PyVal) : Option (Chunk × List ℚ) :=
  match row with
  | PyVal.dict m => do
      let chv ← (m.find? (fun p => p.1 == "chunk")).map Prod.snd
      let ch ← _chunk_from_dict chv
      let vv ← (m.find? (fun p => p.1 == "vector")).map Prod.snd
      let vec ← match vv with
        | PyVal.list xs => vecFromVals xs
        | _ => Option.none
      some (ch, vec)
  | _ => Option.none

/-- The per-line loop of `load`, appending one parsed pair per row. -/
def loadRows : List PyVal → Option (List (Chunk × List ℚ))
  | [] => some []
  | r :: rs => do
      let p ← loadRow r
      let ps ← loadRows rs
      some (p :: ps)

/-- `JsonlVectorStore.load`, at the JSON-value level: parse every row
back into a `(chunk, vector)` pair, rebuilding the two parallel lists.
(Blank-line skipping and the fatal `RuntimeError` for an unparseable line
happen below this level, inside the external `json.loads`.) -/
def storeLoad (rows : List PyVal) :
    Option (List Chunk × List (List ℚ)) :=
  (loadRows rows).map (fun ps => (ps.map Prod.fst, ps.map Prod.snd))

/-! ## Pipeline orchestration (`src/rag/app/pipeline.py` and `ask.py`) -/

/-- `rag_answer` of `src/rag/app/pipeline.py`: retrieve, build the
context pack, generate — with no emptiness check anywhere.  The
collaborator ports are explicit arguments; the context builder is the
concrete `SimpleContextBuilder` adapter. -/
def rag_answer {A : Type} (retrieve :
      String → ℕ → List (String × PyVal) → List (Candidate ℚ))
    (context_builder : SimpleContextBuilder ℚ)
    (generate : String → ContextPack ℚ → A) (query : String)
    (top_k : ℕ) (token_budget : ℕ) (filters : List (String × PyVal))
    (metadata : List (String × PyVal)) : A :=
  generate query
    (context_builder.build query (retrieve query top_k filters)
      token_budget metadata)

/-- The `if not nodes: raise RuntimeError(...)` check of `ask.py`
(`main`), applied to the retriever output. -/
def askRetrieveCheck (nodes : List NodeWithScore) :
    Except String (List NodeWithScore) :=
  if nodes.isEmpty then
    Except.error "No retrieved nodes. Index may be empty or not ingested yet."
  else Except.ok nodes

/-! ## Concrete scenario data -/

/-- The rational 0.9 (in lowest terms, so that kernel reduction works). -/
def q09 : ℚ := Rat.mk' 9 10 (by decide) (by decide)

/-- The rational 0.8 = 4/5. -/
def q08 : ℚ := Rat.mk' 4 5 (by decide) (by decide)

/-- The rational 0.7 = 7/10. -/
def q07 : ℚ := Rat.mk' 7 10 (by decide) (by decide)

/-- Scenario A, node 1: score 0.9, source `sourceA`. -/
def scenANode1 : NodeWithScore :=
  ⟨⟨"idA1", "text one", [("source_path", PyVal.str "sourceA")]⟩, some q09⟩

/-- Scenario A, node 2: score 0.8, source `sourceA`. -/
def scenANode2 : NodeWithScore :=
  ⟨⟨"idA2", "text two", [("source_path", PyVal.str "sourceA")]⟩, some q08⟩

/-- Scenario A, node 3: score 0.7, source `sourceB`. -/
def scenANode3 : NodeWithScore :=
  ⟨⟨"idB1", "text three", [("source_path", PyVal.str "sourceB")]⟩, some q07⟩

/-- Scenario B, candidate 1: 112 characters of text, so its packing cost
is `1 + 112 / 4 + 1 = 30` estimated tokens; score 1. -/
def scenBCand1 : Candidate ℚ :=
  ⟨⟨"b1", "d1", String.mk (List.replicate 112 'a'), 0, Option.none,
     Option.none, Option.none, Option.none, Option.none, []⟩, 1,
   Option.none, []⟩

/-- Scenario B, candidate 2: 112 different characters (cost 30); score 0. -/
def scenBCand2 : Candidate ℚ :=
  ⟨⟨"b2", "d2", String.mk (List.replicate 112 'b'), 0, Option.none,
     Option.none, Option.none, Option.none, Option.none, []⟩, 0,
   Option.none, []⟩

/-- The Scenario C model output `{"ranked": [2, 0, 0, 5]}` (as raw text). -/
def scenCRaw : String := "\x7b\"ranked\": [2, 0, 0, 5]\x7d"

/-- A `json.loads` model that parses exactly the Scenario C output. -/
def scenCLoads : String → Option PyVal := fun s =>
  if s == scenCRaw then
    some (PyVal.dict [("ranked",
      PyVal.list [PyVal.int 2, PyVal.int 0, PyVal.int 0, PyVal.int 5])])
  else Option.none


/-- The builder configuration used for the Scenario B instance: defaults
with content dedupe off, so the second candidate is excluded by the token
budget alone. -/
def scenBuilder : SimpleContextBuilder ℚ :=
  ⟨Option.none, 12, false, false⟩

/-- A small candidate (packing cost 3) for the `max_chunks = 0`
counterexample. -/
def scenTinyCand : Candidate ℚ :=
  ⟨⟨"t1", "d", "tiny", 0, Option.none, Option.none, Option.none,
     Option.none, Option.none, []⟩, 1, Option.none, []⟩


/-- A one-node candidate pool used by concrete reranker instances. -/
def wNode : NodeWithScore := ⟨⟨"n0", "t", []⟩, some 1⟩

/-- A `json.loads` model that fails on every input. -/
def wLoads : String → Option PyVal := fun _ => Option.none

/-- A trivial `json.dumps` model. -/
def wDumps : List RerankItem → String := fun _ => ""

/-- A model whose call succeeds with empty text. -/
def wLlm : String → Except Unit String := fun _ => Except.ok ""

/-- A model whose call raises. -/
def wLlmErr : String → Except Unit String := fun _ => Except.error ()


/-- A chunk whose metadata holds a (non-JSON) tuple value; `json_sanitize`
rewrites it to a list on save. -/
def scenTupleChunk : Chunk :=
  ⟨"c", "d", "t", 0, Option.none, Option.none, Option.none, Option.none,
   Option.none, [("t", PyVal.tuple [])]⟩

/-- A chunk with JSON-safe metadata. -/
def scenSafeChunk : Chunk :=
  ⟨"c", "d", "t", 0, some 3, Option.none, some "H", Option.none,
   Option.none, [("k", PyVal.str "v")]⟩

/-- `JsonSafe` is decidable (it is an equality of `PyVal`s). -/
instance (v : PyVal) : Decidable (JsonSafe v) :=
  inferInstanceAs (Decidable (json_sanitize v = v))

/-! ## Theorems -/

theorem pyInsert_perm {α : Type} (before : α → α → Bool) (x : α)
    (l : List α) : (pyInsert before x l).Perm (x :: l) := by
  induction l with
  | nil => simp [pyInsert]
  | cons y t ih =>
      by_cases h : before y x
      · simpa [pyInsert, h] using ((ih.cons y).trans (List.Perm.swap x y t))
      · simp [pyInsert, h]

theorem pySort_perm {α : Type} (before : α → α → Bool) (l : List α) :
    (pySort before l).Perm l := by
  induction l with
  | nil => simp [pySort]
  | cons x xs ih =>
      exact (pyInsert_perm before x (pySort before xs)).trans (ih.cons x)

theorem pySort_length {α : Type} (before : α → α → Bool) (l : List α) :
    (pySort before l).length = l.length :=
  (pySort_perm before l).length_eq

theorem pySort_mem {α : Type} (before : α → α → Bool) (l : List α) (x : α) :
    x ∈ pySort before l ↔ x ∈ l :=
  (pySort_perm before l).mem_iff

theorem pyInsert_sorted {α K : Type} [LinearOrder K] (k : α → K) (x : α)
    (l : List α) (h : l.Pairwise (fun a b => k a ≤ k b)) :
    (pyInsert (fun a b => decide (k a < k b)) x l).Pairwise
      (fun a b => k a ≤ k b) := by
  induction l with
  | nil => simp [pyInsert]
  | cons y t ih =>
      rw [List.pairwise_cons] at h
      by_cases hyx : k y < k x
      · rw [pyInsert, if_pos (by simpa using hyx)]
        refine List.pairwise_cons.2 ⟨?_, ih h.2⟩
        intro a ha
        rcases List.mem_cons.1
            ((pyInsert_perm (fun a b => decide (k a < k b)) x t).mem_iff.1
              ha) with heq | hmem
        · exact le_of_lt (heq ▸ hyx)
        · exact h.1 a hmem
      · rw [pyInsert, if_neg (by simpa using hyx)]
        refine List.pairwise_cons.2 ⟨?_, List.pairwise_cons.2 h⟩
        intro a ha
        rcases List.mem_cons.1 ha with heq | hmem
        · exact heq ▸ le_of_not_lt hyx
        · exact le_trans (le_of_not_lt hyx) (h.1 a hmem)

theorem pySortKey_sorted {α K : Type} [LinearOrder K] (k : α → K)
    (l : List α) :
    (pySortKey k l).Pairwise (fun a b => k a ≤ k b) := by
  induction l with
  | nil => simp [pySortKey, pySort]
  | cons x xs ih =>
      exact pyInsert_sorted k x _ ih

theorem pySortKeyDesc_sorted {α K : Type} [LinearOrder K] (k : α → K)
    (l : List α) :
    (pySortKeyDesc k l).Pairwise (fun a b => k b ≤ k a) := by
  simpa [pySortKeyDesc, pySortKey] using
    pySortKey_sorted (K := Kᵒᵈ) (fun a => OrderDual.toDual (k a)) l

/-- Stability of the sort, phrased per key value: sorting does not change
the subsequence of elements having any fixed key. -/
theorem pyInsert_filter_key {α K : Type} [LinearOrder K] (k : α → K)
    (x : α) (l : List α) (v : K) :
    (pyInsert (fun a b => decide (k a < k b)) x l).filter
        (fun a => decide (k a = v)) =
      if k x = v then
        x :: l.filter (fun a => decide (k a = v))
      else l.filter (fun a => decide (k a = v)) := by
  induction l with
  | nil =>
      by_cases hxv : k x = v <;> simp [pyInsert, hxv]
  | cons y t ih =>
      by_cases hyx : k y < k x
      · rw [pyInsert, if_pos (by simpa using hyx)]
        by_cases hxv : k x = v
        · have hyv : ¬ (k y = v) := by
            intro h
            rw [h, hxv] at hyx
            exact lt_irrefl v hyx
          simp [List.filter_cons, ih, hxv, hyv]
        · simp [List.filter_cons, ih, hxv]
      · rw [pyInsert, if_neg (by simpa using hyx)]
        by_cases hxv : k x = v <;> simp [List.filter_cons, hxv]

theorem pySortKey_filter_key {α K : Type} [LinearOrder K] (k : α → K)
    (l : List α) (v : K) :
    (pySortKey k l).filter (fun a => decide (k a = v)) =
      l.filter (fun a => decide (k a = v)) := by
  induction l with
  | nil => rfl
  | cons x xs ih =>
      show (pyInsert _ x (pySortKey k xs)).filter _ = _
      rw [pyInsert_filter_key k x (pySortKey k xs) v]
      by_cases hxv : k x = v <;> simp [List.filter_cons, hxv, ih]

/-- Unfolding `pyGet` over a cons cell. -/
theorem pyGet_cons (k' : String) (v' : PyVal) (m : List (String × PyVal))
    (k : String) :
    pyGet ((k', v') :: m) k = if (k' == k) = true then v' else pyGet m k := by
  by_cases h : (k' == k) = true
  · rw [if_pos h]
    simp [pyGet, List.find?, h]
  · rw [if_neg h]
    simp only [Bool.not_eq_true] at h
    simp [pyGet, List.find?, h]

/-- Reading back the key just written by `pyDictSet`. -/
theorem pyGet_pyDictSet (m : List (String × PyVal)) (k : String)
    (v : PyVal) : pyGet (pyDictSet m k v) k = v := by
  induction m with
  | nil => simp [pyDictSet, pyGet]
  | cons p rest ih =>
      cases p with
      | mk k' v' =>
          by_cases h : (k' == k) = true
          · rw [pyDictSet, if_pos h, pyGet_cons, if_pos h]
          · rw [pyDictSet, if_neg h, pyGet_cons, if_neg h]
            exact ih

/-- Accounting invariant of the packing loop: the final state extends the
initial one by one cost per accepted chunk; each acceptance kept the
running total within the budget; and the accepted count respects
`max_chunks` whenever the initial count was strictly below it. -/
theorem buildLoop_spec {K : Type} [LinearOrder K] [ToString K]
    (cfg : SimpleContextBuilder K) (B : ℕ) :
    ∀ (l : List (Candidate K)) (st : BuildState K),
      ∃ costs : List ℕ,
        (buildLoop cfg B l st).chosen.length =
          st.chosen.length + costs.length ∧
        (buildLoop cfg B l st).tokens_used = st.tokens_used + costs.sum ∧
        (∀ i, i < costs.length →
          st.tokens_used + (costs.take (i + 1)).sum ≤ B) ∧
        (st.chosen.length < cfg.max_chunks →
          st.chosen.length + costs.length ≤ cfg.max_chunks) := by
  intro l
  induction l with
  | nil =>
      intro st
      exact ⟨[], by simp [buildLoop], by simp [buildLoop], by simp,
        fun h => by simpa using Nat.le_of_lt h⟩
  | cons cand rest ih =>
      intro st
      simp only [buildLoop]
      by_cases h1 :
          (cfg.min_score.elim false
            (fun m => decide (candidate_key cand < m))) = true
      · rw [if_pos h1]; exact ih st
      · rw [if_neg h1]
        by_cases h2 : (cfg.dedupe && st.seen.contains
            ((_normalize_for_dedupe cand.chunk.text).take 500)) = true
        · rw [if_pos h2]
          exact ih st
        · rw [if_neg h2]
          by_cases h3 : B < st.tokens_used +
              chunkCost cfg st.chosen.length (candidate_key cand)
                cand.chunk.text
          · rw [if_pos h3]
            exact ⟨[], by simp, by simp, by simp,
              fun h => by simpa using Nat.le_of_lt h⟩
          · rw [if_neg h3]
            by_cases h4 : cfg.max_chunks ≤ st.chosen.length + 1
            · rw [if_pos (by simpa using h4)]
              refine ⟨[chunkCost cfg st.chosen.length (candidate_key cand)
                cand.chunk.text], by simp, by simp, ?_, ?_⟩
              · intro i hi
                have hi0 : i = 0 := by
                  simpa [Nat.lt_one_iff] using hi
                subst hi0
                simpa using Nat.le_of_not_lt h3
              · intro h
                simpa using Nat.succ_le_of_lt h
            · rw [if_neg (by simpa using h4)]
              obtain ⟨costs, hlen, htok, hpre, hcnt⟩ := ih
                { chosen := st.chosen ++ [cand.chunk]
                  citations := st.citations ++
                    [buildCitation cand.chunk
                      (st.chosen ++ [cand.chunk]).length (candidate_key cand)]
                  seen := if cfg.dedupe then
                      (_normalize_for_dedupe cand.chunk.text).take 500 ::
                        st.seen
                    else st.seen
                  tokens_used := st.tokens_used +
                    chunkCost cfg st.chosen.length (candidate_key cand)
                      cand.chunk.text }
              refine ⟨chunkCost cfg st.chosen.length (candidate_key cand)
                cand.chunk.text :: costs, ?_, ?_, ?_, ?_⟩
              · simp only [List.length_append, List.length_cons,
                  List.length_nil] at hlen ⊢
                omega
              · simp only [List.sum_cons] at htok ⊢
                omega
              · intro i hi
                cases i with
                | zero => simpa using Nat.le_of_not_lt h3
                | succ j =>
                    have hj := hpre j (by
                      simpa using Nat.lt_of_succ_lt_succ hi)
                    simp only [List.take_succ_cons, List.sum_cons] at hj ⊢
                    omega
              · intro h
                have hlt : st.chosen.length + 1 < cfg.max_chunks :=
                  Nat.lt_of_not_le h4
                have hc := hcnt (by
                  simpa using hlt)
                simp only [List.length_append, List.length_cons,
                  List.length_nil] at hc ⊢
                omega

/-- Packing accounting at the `build` level: the header costs 2 estimated
tokens, each accepted chunk contributes one cost, every acceptance kept
`2 + previous + own` within the budget, and the accepted count respects a
positive `max_chunks`. -/
theorem build_spec {K : Type} [LinearOrder K] [ToString K]
    (cfg : SimpleContextBuilder K) (query : String)
    (candidates : List (Candidate K)) (B : ℕ)
    (meta : List (String × PyVal)) :
    ∃ costs : List ℕ,
      (cfg.build query candidates B meta).chunks.length = costs.length ∧
      pyGet (cfg.build query candidates B meta).metadata "tokens_used_est" =
        PyVal.int ((2 + costs.sum : ℕ) : ℤ) ∧
      (∀ i, i < costs.length → 2 + (costs.take (i + 1)).sum ≤ B) ∧
      (1 ≤ cfg.max_chunks → costs.length ≤ cfg.max_chunks) := by
  obtain ⟨costs, hlen, htok, hpre, hcnt⟩ :=
    buildLoop_spec cfg B (pySortKeyDesc candidate_key candidates)
      { chosen := [], citations := [], seen := [],
        tokens_used := _estimate_tokens "Context:\n" }
  have hest : _estimate_tokens "Context:\n" = 2 := by decide
  refine ⟨costs, ?_, ?_, ?_, ?_⟩
  · simp only [SimpleContextBuilder.build]
    simpa using hlen
  · simp only [SimpleContextBuilder.build]
    rw [pyGet_pyDictSet, htok]
    simp [hest]
  · intro i hi
    have := hpre i hi
    simpa [hest] using this
  · intro hm
    have := hcnt (by simpa using hm)
    simpa using this

/-- Scenario B, loop level: with budget 50 and two candidates of cost 30
each, the loop accepts the first (2 + 30 = 32 ≤ 50) and breaks on the
second (32 + 30 = 62 > 50). -/
theorem scenarioB_loop (c1 c2 : Candidate ℚ)
    (hcost1 : chunkCost scenBuilder 0 (candidate_key c1) c1.chunk.text = 30)
    (hcost2 : chunkCost scenBuilder 1 (candidate_key c2) c2.chunk.text = 30) :
    buildLoop scenBuilder 50 [c1, c2] ⟨[], [], [], 2⟩ =
      ⟨[c1.chunk], [buildCitation c1.chunk 1 (candidate_key c1)], [], 32⟩ := by
  have hms : scenBuilder.min_score = Option.none := rfl
  have hdd : scenBuilder.dedupe = false := rfl
  have hmc : scenBuilder.max_chunks = 12 := rfl
  simp only [buildLoop, hms, hdd, hmc, Option.elim, Bool.false_and,
    List.length_nil, List.nil_append, List.length_cons, List.length_singleton,
    if_false, Bool.false_eq_true, hcost1, hcost2]
  norm_num

/-- Scenario B, `build` level: only the first candidate is packed. -/
theorem scenarioB_pack (c1 c2 : Candidate ℚ)
    (hkey : candidate_key c2 ≤ candidate_key c1)
    (hcost1 : chunkCost scenBuilder 0 (candidate_key c1) c1.chunk.text = 30)
    (hcost2 : chunkCost scenBuilder 1 (candidate_key c2) c2.chunk.text = 30) :
    (scenBuilder.build "q" [c1, c2] 50 []).chunks = [c1.chunk] := by
  have hnlt : ¬ (candidate_key c1 < candidate_key c2) := not_lt.2 hkey
  have hsort : pySortKeyDesc candidate_key [c1, c2] = [c1, c2] := by
    simp [pySortKeyDesc, pySort, pyInsert, hnlt]
  have hest : _estimate_tokens "Context:\n" = 2 := by decide
  simp only [SimpleContextBuilder.build, hsort, hest]
  rw [scenarioB_loop c1 c2 hcost1 hcost2]

/-- **C1** (amended): for every packing run of
`SimpleContextBuilder.build` with a positive configured `max_chunks` and a
token budget of at least the 2-token header cost, the accepted-chunk count
never exceeds `max_chunks`, the recorded estimated token usage never
exceeds the budget, and the sum of the estimated token costs of the
accepted chunks never exceeds the budget; moreover (Scenario B) with a
budget of 50 and two candidates costing 30 estimated tokens each, only
the first is packed and the second is excluded without an error. -/
theorem claim_C1 {K : Type} [LinearOrder K] [ToString K]
    (cfg : SimpleContextBuilder K) (query : String)
    (candidates : List (Candidate K)) (B : ℕ) (meta : List (String × PyVal))
    (c1 c2 : Candidate ℚ)
    (hmax : 1 ≤ cfg.max_chunks) (hbud : 2 ≤ B)
    (hkey : candidate_key c2 ≤ candidate_key c1)
    (hcost1 : chunkCost scenBuilder 0 (candidate_key c1) c1.chunk.text = 30)
    (hcost2 : chunkCost scenBuilder 1 (candidate_key c2) c2.chunk.text = 30) :
    (cfg.build query candidates B meta).chunks.length ≤ cfg.max_chunks ∧
    (∃ tokens : ℕ,
      pyGet (cfg.build query candidates B meta).metadata "tokens_used_est" =
        PyVal.int (tokens : ℤ) ∧ tokens ≤ B) ∧
    (∃ costs : List ℕ,
      costs.length = (cfg.build query candidates B meta).chunks.length ∧
      pyGet (cfg.build query candidates B meta).metadata "tokens_used_est" =
        PyVal.int ((2 + costs.sum : ℕ) : ℤ) ∧ costs.sum ≤ B) ∧
    (scenBuilder.build "q" [c1, c2] 50 []).chunks = [c1.chunk] := by
  obtain ⟨costs, hlen, hget, hpre, hcnt⟩ :=
    build_spec cfg query candidates B meta
  have hTB : 2 + costs.sum ≤ B := by
    cases costs with
    | nil => simpa using hbud
    | cons c cs =>
        have h := hpre cs.length (by simp)
        simpa [List.take_succ_cons, List.take_length] using h
  refine ⟨?_, ⟨2 + costs.sum, hget, hTB⟩, ⟨costs, hlen.symm, hget, ?_⟩, ?_⟩
  · rw [hlen]
    exact hcnt hmax
  · omega
  · exact scenarioB_pack c1 c2 hkey hcost1 hcost2

set_option maxRecDepth 40000 in
/-- **C1 counterexample**: the claim quantifies over every token budget
and every `max_chunks`.  With token budget 1 (even with no candidates)
the recorded estimated token usage is 2, exceeding the budget; and with
`max_chunks = 0` and an affordable candidate, one chunk is still packed,
exceeding the configured maximum. -/
theorem claim_C1_counterexample :
    (pyGet ((SimpleContextBuilder.default ℚ).build "q" [] 1 []).metadata
        "tokens_used_est" = PyVal.int 2 ∧ ¬ ((2 : ℤ) ≤ 1)) ∧
    (((SimpleContextBuilder.mk Option.none 0 true false).build "q"
        [scenTinyCand] 50 []).chunks.length = 1 ∧ ¬ (1 ≤ 0)) :=
  ⟨⟨by decide, by decide⟩, ⟨by decide, by decide⟩⟩

set_option maxRecDepth 40000 in
/-- **C1 witness**: the amended claim instantiated at the default builder,
budget 50, and the two concrete Scenario B candidates (112 characters of
text each, so each costs exactly 30 estimated tokens). -/
theorem claim_C1_witness :
    (1 ≤ (SimpleContextBuilder.default ℚ).max_chunks) ∧ (2 ≤ 50) ∧
    (candidate_key scenBCand2 ≤ candidate_key scenBCand1) ∧
    (chunkCost scenBuilder 0 (candidate_key scenBCand1)
      scenBCand1.chunk.text = 30) ∧
    (chunkCost scenBuilder 1 (candidate_key scenBCand2)
      scenBCand2.chunk.text = 30) ∧
    (((SimpleContextBuilder.default ℚ).build "q" [scenBCand1, scenBCand2]
        50 []).chunks.length ≤ (SimpleContextBuilder.default ℚ).max_chunks ∧
     (∃ tokens : ℕ,
       pyGet ((SimpleContextBuilder.default ℚ).build "q"
           [scenBCand1, scenBCand2] 50 []).metadata "tokens_used_est" =
         PyVal.int (tokens : ℤ) ∧ tokens ≤ 50) ∧
     (∃ costs : List ℕ,
       costs.length = ((SimpleContextBuilder.default ℚ).build "q"
         [scenBCand1, scenBCand2] 50 []).chunks.length ∧
       pyGet ((SimpleContextBuilder.default ℚ).build "q"
           [scenBCand1, scenBCand2] 50 []).metadata "tokens_used_est" =
         PyVal.int ((2 + costs.sum : ℕ) : ℤ) ∧ costs.sum ≤ 50) ∧
     (scenBuilder.build "q" [scenBCand1, scenBCand2] 50 []).chunks =
       [scenBCand1.chunk]) :=
  ⟨by decide, by decide, by decide, by decide, by decide,
   claim_C1 (SimpleContextBuilder.default ℚ) "q" [scenBCand1, scenBCand2]
     50 [] scenBCand1 scenBCand2 (by decide) (by decide) (by decide)
     (by decide) (by decide)⟩

/-- **C10** (confirmed): `build` charges the fixed 2-estimated-token
header cost `_estimate_tokens "Context:\n"` before any candidate; a
candidate is accepted only if the header cost plus all previously
accepted costs plus its own cost fit within the budget; the recorded
`tokens_used_est` equals `2 +` the accepted costs, hence is at least 2 —
and exceeds any budget smaller than 2, in which case nothing is packed. -/
theorem claim_C10 {K : Type} [LinearOrder K] [ToString K]
    (cfg : SimpleContextBuilder K) (query : String)
    (candidates : List (Candidate K)) (B : ℕ)
    (meta : List (String × PyVal)) :
    _estimate_tokens "Context:\n" = 2 ∧
    ∃ costs : List ℕ,
      costs.length = (cfg.build query candidates B meta).chunks.length ∧
      pyGet (cfg.build query candidates B meta).metadata "tokens_used_est" =
        PyVal.int ((2 + costs.sum : ℕ) : ℤ) ∧
      (∀ i, i < costs.length → 2 + (costs.take (i + 1)).sum ≤ B) ∧
      (B < 2 → (cfg.build query candidates B meta).chunks = [] ∧
        B < 2 + costs.sum) := by
  obtain ⟨costs, hlen, hget, hpre, _⟩ :=
    build_spec cfg query candidates B meta
  refine ⟨by decide, costs, hlen.symm, hget, hpre, ?_⟩
  intro hB
  have hnil : costs = [] := by
    cases costs with
    | nil => rfl
    | cons c cs =>
        have h := hpre 0 (by simp)
        simp only [List.take_succ_cons, List.take_zero, List.sum_cons,
          List.sum_nil] at h
        omega
  subst hnil
  refine ⟨List.length_eq_zero.1 (by simpa using hlen), by simpa using hB⟩

/-- Bridge between `List.contains` and membership for lawful `BEq`. -/
theorem containsIffMem {α : Type} [BEq α] [LawfulBEq α] {l : List α}
    {a : α} : (l.contains a = true) ↔ a ∈ l := by
  simp [List.contains]

/-- Combined invariants of the first-occurrence-per-key filter applied to
a score-sorted list: output keys are distinct and outside `seen`, each
retained node is best-in-class for its key, and the output is a
no-longer selection from the input. -/
theorem keepFirst_props (key : String) :
    ∀ (l : List NodeWithScore) (seen : List PyVal),
      l.Pairwise (fun a b => scoreSortKey a ≤ scoreSortKey b) →
      ((keepFirstByKey key seen l).map (nodeKey key)).Nodup ∧
      (∀ r ∈ keepFirstByKey key seen l, ¬ (nodeKey key r ∈ seen)) ∧
      (∀ r ∈ keepFirstByKey key seen l, ∀ c ∈ l,
        nodeKey key c = nodeKey key r → scoreSortKey r ≤ scoreSortKey c) ∧
      (keepFirstByKey key seen l).length ≤ l.length ∧
      (∀ r ∈ keepFirstByKey key seen l, r ∈ l) := by
  intro l
  induction l with
  | nil =>
      intro seen _
      simp [keepFirstByKey]
  | cons n rest ih =>
      intro seen hp
      rw [List.pairwise_cons] at hp
      by_cases hc : (seen.contains (nodeKey key n)) = true
      · rw [keepFirstByKey, if_pos hc]
        obtain ⟨ihn, ihs, ihb, ihl, ihm⟩ := ih seen hp.2
        refine ⟨ihn, ihs, ?_, le_trans ihl (by simp), ?_⟩
        · intro r hr c hcmem hkeq
          rcases List.mem_cons.1 hcmem with rfl | hcr
          · exact absurd (hkeq ▸ containsIffMem.1 hc) (ihs r hr)
          · exact ihb r hr c hcr hkeq
        · intro r hr
          exact List.mem_cons_of_mem n (ihm r hr)
      · rw [keepFirstByKey, if_neg hc]
        obtain ⟨ihn, ihs, ihb, ihl, ihm⟩ :=
          ih (nodeKey key n :: seen) hp.2
        refine ⟨?_, ?_, ?_, by simpa using ihl, ?_⟩
        · refine List.nodup_cons.2 ⟨?_, ihn⟩
          intro hmem
          obtain ⟨r, hr, hkr⟩ := List.mem_map.1 hmem
          exact ihs r hr (hkr ▸ List.mem_cons_self _ _)
        · intro r hr
          rcases List.mem_cons.1 hr with rfl | hr'
          · exact fun hmem => hc (containsIffMem.2 hmem)
          · exact fun hmem => ihs r hr' (List.mem_cons_of_mem _ hmem)
        · intro r hr c hcmem hkeq
          rcases List.mem_cons.1 hr with rfl | hr'
          · rcases List.mem_cons.1 hcmem with rfl | hcr
            · exact le_refl _
            · exact hp.1 c hcr
          · rcases List.mem_cons.1 hcmem with rfl | hcr
            · exact absurd (hkeq ▸ List.mem_cons_self _ _) (ihs r hr')
            · exact ihb r hr' c hcr hkeq
        · intro r hr
          rcases List.mem_cons.1 hr with rfl | hr'
          · exact List.mem_cons_self _ _
          · exact List.mem_cons_of_mem n (ihm r hr')

/-- `keepFirstByKey` only looks at membership of `seen`, not its order or
multiplicity. -/
theorem keepFirst_congr (key : String) :
    ∀ (l : List NodeWithScore) (s1 s2 : List PyVal),
      (∀ x, x ∈ s1 ↔ x ∈ s2) →
      keepFirstByKey key s1 l = keepFirstByKey key s2 l := by
  intro l
  induction l with
  | nil => intro s1 s2 _; rfl
  | cons n rest ih =>
      intro s1 s2 hiff
      have hceq :
          s1.contains (nodeKey key n) = s2.contains (nodeKey key n) := by
        by_cases h : (s1.contains (nodeKey key n)) = true
        · rw [h, Eq.comm]
          exact containsIffMem.2 ((hiff _).1 (containsIffMem.1 h))
        · have h2 : ¬ (s2.contains (nodeKey key n) = true) := fun hh =>
            h (containsIffMem.2 ((hiff _).2 (containsIffMem.1 hh)))
          rw [Bool.eq_false_iff.2 h, Bool.eq_false_iff.2 h2]
      have hiff2 : ∀ x,
          x ∈ (nodeKey key n :: s1) ↔ x ∈ (nodeKey key n :: s2) := by
        intro x
        simp [hiff x]
      rw [keepFirstByKey, keepFirstByKey, hceq]
      by_cases h : (s2.contains (nodeKey key n)) = true
      · rw [if_pos h, if_pos h, ih s1 s2 hiff]
      · rw [if_neg h, if_neg h, ih (nodeKey key n :: s1)
          (nodeKey key n :: s2) hiff2]

/-- The dict-based accumulation of `dedupe_by_source` equals the direct
first-occurrence filter, for any accumulator whose keys are the seen
set. -/
theorem dedupeFold_eq_keepFirst (key : String) :
    ∀ (l : List NodeWithScore) (best : List (PyVal × NodeWithScore)),
      (l.foldl (dedupeInsert key) best).map Prod.snd =
        best.map Prod.snd ++ keepFirstByKey key (best.map Prod.fst) l := by
  intro l
  induction l with
  | nil => intro best; simp [keepFirstByKey]
  | cons n rest ih =>
      intro best
      rw [List.foldl_cons, keepFirstByKey]
      by_cases hc : ((best.map Prod.fst).contains (nodeKey key n)) = true
      · rw [dedupeInsert, if_pos hc, if_pos hc, ih]
      · rw [dedupeInsert, if_neg hc, if_neg hc, ih]
        simp only [List.map_append, List.map_cons, List.map_nil]
        rw [keepFirst_congr key rest
          (best.map Prod.fst ++ [nodeKey key n])
          (nodeKey key n :: best.map Prod.fst)
          (fun x => by simp [or_comm])]
        simp

/-- `dedupe_by_source` refines the spec-worded description: sort by score
descending (nulls last), keep the first node per key in order of first
occurrence. -/
theorem dedupe_eq_spec (nodes : List NodeWithScore) (key : String) :
    dedupe_by_source nodes key = dedupeSpec nodes key := by
  rw [dedupe_by_source, dedupeSpec, dedupeFold_eq_keepFirst key _ []]
  simp

set_option maxRecDepth 40000 in
/-- **C2** (confirmed): `dedupe_by_source` returns a list no longer than
its input in which no two retained nodes share a provenance key; nodes
with a falsy provenance value get a synthetic key that is unique per node
id; the retained node per key is best in the `(score is None, -score)`
order (maximum score, nulls last) among all input nodes with that key;
the output is exactly the spec-worded first-occurrence filter of the
stable score-descending sort; and Scenario A ([0.9 sourceA, 0.8 sourceA,
0.7 sourceB] dedupes to [0.9 sourceA, 0.7 sourceB]) holds. -/
theorem claim_C2 (nodes : List NodeWithScore) (key : String) :
    (dedupe_by_source nodes key).length ≤ nodes.length ∧
    ((dedupe_by_source nodes key).map (nodeKey key)).Nodup ∧
    (∀ a b : NodeWithScore,
      pyTruthy (pyGet a.node.metadata key) = false →
      pyTruthy (pyGet b.node.metadata key) = false →
      nodeKey key a = nodeKey key b → a.node.node_id = b.node.node_id) ∧
    (∀ r ∈ dedupe_by_source nodes key, ∀ c ∈ nodes,
      nodeKey key c = nodeKey key r → scoreSortKey r ≤ scoreSortKey c) ∧
    (∀ r ∈ dedupe_by_source nodes key, r ∈ nodes) ∧
    dedupe_by_source nodes key = dedupeSpec nodes key ∧
    dedupe_by_source [scenANode1, scenANode2, scenANode3] "source_path" =
      [scenANode1, scenANode3] := by
  have hspec := dedupe_eq_spec nodes key
  have hsorted : (sortByScore nodes).Pairwise
      (fun a b => scoreSortKey a ≤ scoreSortKey b) :=
    pySortKey_sorted scoreSortKey nodes
  obtain ⟨hnodup, _, hbest, hlen, hmem⟩ :=
    keepFirst_props key (sortByScore nodes) [] hsorted
  have hmemnodes : ∀ r ∈ dedupeSpec nodes key, r ∈ nodes := by
    intro r hr
    exact (pySort_mem _ nodes r).1 (hmem r hr)
  refine ⟨?_, ?_, ?_, ?_, ?_, hspec, ?_⟩
  · rw [hspec]
    calc (dedupeSpec nodes key).length ≤ (sortByScore nodes).length := hlen
      _ = nodes.length := pySort_length _ nodes
  · rw [hspec]
    exact hnodup
  · intro a b ha hb hk
    have hka : nodeKey key a =
        PyVal.str ("__missing__::" ++ a.node.node_id) := by
      rw [nodeKey, pyOr, if_neg (by simp [ha])]
    have hkb : nodeKey key b =
        PyVal.str ("__missing__::" ++ b.node.node_id) := by
      rw [nodeKey, pyOr, if_neg (by simp [hb])]
    rw [hka, hkb] at hk
    have hstr : ("__missing__::" ++ a.node.node_id).data =
        ("__missing__::" ++ b.node.node_id).data := by
      have := PyVal.str.inj hk
      rw [this]
    simp only [String.data_append] at hstr
    exact String.ext (List.append_cancel_left hstr)
  · intro r hr c hc hk
    rw [hspec] at hr
    exact hbest r hr c ((pySort_mem _ nodes c).2 hc) hk
  · intro r hr
    rw [hspec] at hr
    exact hmemnodes r hr
  · decide

/-- **C4** (amended): with a nonempty candidate list, positive `keep_k`
and the model configured, every parse-level failure mode — no JSON object
in the output, unparseable JSON, a ranking whose in-range filtering is
empty (all indices out of range or an empty ranking) — yields exactly the
same deterministic fallback `scoreSortedTruncate candidates keep_k`;
an exception from the model call itself, however, propagates to the
caller instead of producing the fallback (the `try` block starts after
`llm.complete`). -/
theorem claim_C4 (loads : String → Option PyVal)
    (dumps : List RerankItem → String)
    (llmFn : String → Except Unit String) (query : String)
    (candidates : List NodeWithScore) (keep_k preview_chars : ℕ)
    (hne : candidates ≠ []) (hk : 0 < keep_k) :
    (∀ raw, extractJsonSpan raw = Option.none →
      rerankParse loads raw candidates keep_k =
        scoreSortedTruncate candidates keep_k) ∧
    (∀ raw s, extractJsonSpan raw = some s → loads s = Option.none →
      rerankParse loads raw candidates keep_k =
        scoreSortedTruncate candidates keep_k) ∧
    (∀ raw s m zs, extractJsonSpan raw = some s →
      loads s = some (PyVal.dict m) →
      rankedInts (rankedField m) = some zs →
      zs.filter (fun i => decide (0 ≤ i) &&
        decide (i < (candidates.length : ℤ))) = [] →
      rerankParse loads raw candidates keep_k =
        scoreSortedTruncate candidates keep_k) ∧
    (∀ raw, llmFn (rerankPrompt dumps query
        (rerankItems candidates preview_chars)) = Except.ok raw →
      llm_rerank loads dumps (some llmFn) query candidates keep_k
        preview_chars =
        Except.ok (rerankParse loads raw candidates keep_k)) ∧
    (∀ e, llmFn (rerankPrompt dumps query
        (rerankItems candidates preview_chars)) = Except.error e →
      llm_rerank loads dumps (some llmFn) query candidates keep_k
        preview_chars = Except.error e) := by
  have hguard : (candidates.isEmpty || keep_k == 0) = false := by
    have h1 : candidates.isEmpty = false := by
      cases candidates with
      | nil => exact absurd rfl hne
      | cons a l => rfl
    have h2 : (keep_k == 0) = false := by
      cases keep_k with
      | zero => exact absurd rfl (Nat.ne_of_gt hk)
      | succ n => rfl
    rw [h1, h2]
    rfl
  refine ⟨?_, ?_, ?_, ?_, ?_⟩
  · intro raw hraw
    simp only [rerankParse, hraw]
  · intro raw s hraw hl
    simp only [rerankParse, hraw, hl]
  · intro raw s m zs hraw hl hri hfil
    simp only [rerankParse, hraw, hl, hri, hfil]
    simp
  · intro raw hok
    rw [llm_rerank, hguard]
    simp only [Bool.false_eq_true, if_false, hok]
  · intro e herr
    rw [llm_rerank, hguard]
    simp only [Bool.false_eq_true, if_false, herr]

/-- **C4 counterexample** (for the claim as stated): an exception from the
model call is not turned into the fallback — `llm_rerank` propagates the
error instead of returning the score-sorted truncation. -/
theorem claim_C4_counterexample :
    llm_rerank wLoads wDumps (some wLlmErr) "q" [wNode] 1 700 =
      Except.error () ∧
    (Except.error () : Except Unit (List NodeWithScore)) ≠
      Except.ok (scoreSortedTruncate [wNode] 1) :=
  ⟨rfl, by simp⟩

/-- **C4 witness**: the amended claim instantiated at a one-candidate
pool with `keep_k = 1`. -/
theorem claim_C4_witness :
    ([wNode] ≠ []) ∧ (0 < 1) ∧
    ((∀ raw, extractJsonSpan raw = Option.none →
      rerankParse wLoads raw [wNode] 1 = scoreSortedTruncate [wNode] 1) ∧
     (∀ raw s, extractJsonSpan raw = some s → wLoads s = Option.none →
      rerankParse wLoads raw [wNode] 1 = scoreSortedTruncate [wNode] 1) ∧
     (∀ raw s m zs, extractJsonSpan raw = some s →
      wLoads s = some (PyVal.dict m) →
      rankedInts (rankedField m) = some zs →
      zs.filter (fun i => decide (0 ≤ i) &&
        decide (i < (([wNode] : List NodeWithScore).length : ℤ))) = [] →
      rerankParse wLoads raw [wNode] 1 = scoreSortedTruncate [wNode] 1) ∧
     (∀ raw, wLlm (rerankPrompt wDumps "q" (rerankItems [wNode] 700)) =
        Except.ok raw →
      llm_rerank wLoads wDumps (some wLlm) "q" [wNode] 1 700 =
        Except.ok (rerankParse wLoads raw [wNode] 1)) ∧
     (∀ e, wLlm (rerankPrompt wDumps "q" (rerankItems [wNode] 700)) =
        Except.error e →
      llm_rerank wLoads wDumps (some wLlm) "q" [wNode] 1 700 =
        Except.error e)) :=
  ⟨by decide, by decide,
   claim_C4 wLoads wDumps wLlm "q" [wNode] 1 700 (by decide) (by decide)⟩

/-- **C5** (confirmed): when the model returns a parseable ranking,
`llm_rerank` drops every out-of-range index, collapses duplicates keeping
the first occurrence in the model order, and truncates to `keep_k`; and
Scenario C — model output `{"ranked": [2, 0, 0, 5]}` over 3 candidates —
yields exactly `[candidate 2, candidate 0]`. -/
theorem claim_C5 (loads : String → Option PyVal)
    (dumps : List RerankItem → String)
    (llmFn : String → Except Unit String) (query : String)
    (candidates : List NodeWithScore) (keep_k preview_chars : ℕ)
    (raw s : String) (m : List (String × PyVal)) (zs : List ℤ)
    (hne : candidates ≠ []) (hk : 0 < keep_k)
    (hex : extractJsonSpan raw = some s)
    (hld : loads s = some (PyVal.dict m))
    (hri : rankedInts (rankedField m) = some zs)
    (hfil : zs.filter (fun i => decide (0 ≤ i) &&
      decide (i < (candidates.length : ℤ))) ≠ []) :
    rerankParse loads raw candidates keep_k =
      ((dedupFirst (zs.filter (fun i => decide (0 ≤ i) &&
          decide (i < (candidates.length : ℤ)))) []).map
        (fun i => candidates.getD i.toNat default)).take keep_k ∧
    (llmFn (rerankPrompt dumps query
        (rerankItems candidates preview_chars)) = Except.ok raw →
      llm_rerank loads dumps (some llmFn) query candidates keep_k
        preview_chars =
        Except.ok (rerankParse loads raw candidates keep_k)) ∧
    (∀ c0 c1 c2 : NodeWithScore, ∀ kk : ℕ, 2 ≤ kk →
      rerankParse scenCLoads scenCRaw [c0, c1, c2] kk = [c2, c0]) := by
  have hguard : (candidates.isEmpty || keep_k == 0) = false := by
    have h1 : candidates.isEmpty = false := by
      cases candidates with
      | nil => exact absurd rfl hne
      | cons a l => rfl
    have h2 : (keep_k == 0) = false := by
      cases keep_k with
      | zero => exact absurd rfl (Nat.ne_of_gt hk)
      | succ n => rfl
    rw [h1, h2]
    rfl
  refine ⟨?_, ?_, ?_⟩
  · simp only [rerankParse, hex, hld, hri]
    rw [if_neg (by simpa [List.isEmpty_iff] using hfil)]
  · intro hok
    rw [llm_rerank, hguard]
    simp only [Bool.false_eq_true, if_false, hok]
  · intro c0 c1 c2 kk hkk
    have h1 : extractJsonSpan scenCRaw = some scenCRaw := by decide
    have h2 : scenCLoads scenCRaw = some (PyVal.dict [("ranked",
        PyVal.list [PyVal.int 2, PyVal.int 0, PyVal.int 0,
          PyVal.int 5])]) := by decide
    have h3 : rankedInts (rankedField [("ranked",
        PyVal.list [PyVal.int 2, PyVal.int 0, PyVal.int 0,
          PyVal.int 5])]) = some [2, 0, 0, 5] := by decide
    have hlen3 : ((([c0, c1, c2] : List NodeWithScore).length : ℕ) : ℤ) =
        3 := by simp
    have h4 : ([2, 0, 0, 5] : List ℤ).filter (fun i => decide (0 ≤ i) &&
        decide (i < (3 : ℤ))) = [2, 0, 0] := by decide
    simp only [rerankParse, h1, h2, h3, hlen3, h4]
    rw [if_neg (by decide)]
    have h5 : dedupFirst [2, 0, 0] [] = [2, 0] := by decide
    rw [h5]
    simp only [List.map_cons, List.map_nil]
    have h6 : (((2 : ℤ)).toNat) = 2 := rfl
    have h7 : (((0 : ℤ)).toNat) = 0 := rfl
    simp only [h6, h7, List.getD, List.get?]
    rw [List.take_of_length_le (by simpa using hkk)]
    rfl

/-- **C5 witness**: the success path instantiated at a one-candidate pool
with a concrete parse that ranks index 0. -/
theorem claim_C5_witness :
    ([wNode] ≠ []) ∧ (0 < 1) ∧
    (extractJsonSpan scenCRaw = some scenCRaw) ∧
    (scenCLoads scenCRaw = some (PyVal.dict [("ranked",
      PyVal.list [PyVal.int 2, PyVal.int 0, PyVal.int 0, PyVal.int 5])])) ∧
    (rankedInts (rankedField [("ranked",
      PyVal.list [PyVal.int 2, PyVal.int 0, PyVal.int 0, PyVal.int 5])]) =
      some [2, 0, 0, 5]) ∧
    (([2, 0, 0, 5] : List ℤ).filter (fun i => decide (0 ≤ i) &&
      decide (i < (([wNode] : List NodeWithScore).length : ℤ))) ≠ []) ∧
    (rerankParse scenCLoads scenCRaw [wNode] 1 =
      ((dedupFirst (([2, 0, 0, 5] : List ℤ).filter
          (fun i => decide (0 ≤ i) &&
            decide (i < (([wNode] : List NodeWithScore).length : ℤ)))) []).map
        (fun i => ([wNode] : List NodeWithScore).getD i.toNat default)).take 1 ∧
     (wLlm (rerankPrompt wDumps "q" (rerankItems [wNode] 700)) =
        Except.ok scenCRaw →
      llm_rerank scenCLoads wDumps (some wLlm) "q" [wNode] 1 700 =
        Except.ok (rerankParse scenCLoads scenCRaw [wNode] 1)) ∧
     (∀ c0 c1 c2 : NodeWithScore, ∀ kk : ℕ, 2 ≤ kk →
      rerankParse scenCLoads scenCRaw [c0, c1, c2] kk = [c2, c0])) :=
  ⟨by decide, by decide, by decide, by decide, by decide, by decide,
   claim_C5 scenCLoads wDumps wLlm "q" [wNode] 1 700 scenCRaw scenCRaw
     [("ranked", PyVal.list [PyVal.int 2, PyVal.int 0, PyVal.int 0,
       PyVal.int 5])] [2, 0, 0, 5] (by decide) (by decide) (by decide)
     (by decide) (by decide) (by decide)⟩

/-- **C7** (confirmed): `upsert` raises a validation error exactly when
the two sequences differ in length — with the error message from the
source, and before any mutation, so the store is unchanged (the
functional model returns no store on the error path) — and on success
appends the pairs after the existing ones, leaving prior entries in place
and growing `count` by the number of chunks. -/
theorem claim_C7 (store : JsonlVectorStore) (chunks : List Chunk)
    (vectors : List (List ℚ)) :
    ((∃ e, JsonlStore.upsert store chunks vectors = Except.error e) ↔
      chunks.length ≠ vectors.length) ∧
    (chunks.length ≠ vectors.length →
      JsonlStore.upsert store chunks vectors =
        Except.error "chunks and vectors must have the same length") ∧
    (∀ s', JsonlStore.upsert store chunks vectors = Except.ok s' →
      s'.chunks = store.chunks ++ chunks ∧
      s'.vectors = store.vectors ++ vectors ∧
      JsonlStore.count s' = JsonlStore.count store + chunks.length) := by
  by_cases h : chunks.length ≠ vectors.length
  · refine ⟨⟨fun _ => h, fun _ => ⟨_, by rw [JsonlStore.upsert, if_pos h]⟩⟩,
      fun _ => by rw [JsonlStore.upsert, if_pos h], ?_⟩
    intro s' hs'
    rw [JsonlStore.upsert, if_pos h] at hs'
    exact absurd hs' (by simp)
  · refine ⟨⟨?_, fun hh => absurd hh h⟩, fun hh => absurd hh h, ?_⟩
    · rintro ⟨e, he⟩
      rw [JsonlStore.upsert, if_neg h] at he
      exact absurd he (by simp)
    · intro s' hs'
      rw [JsonlStore.upsert, if_neg h] at hs'
      have := Except.ok.inj hs'
      subst this
      refine ⟨rfl, rfl, ?_⟩
      simp [JsonlStore.count]

/-- **C9 counterexample**: `rag_answer` performs no emptiness check — with
a retriever returning zero candidates it silently hands the generator a
`ContextPack` with zero passages (here the generator returns the pack
itself, so the zero-passage pack is the pipeline output). -/
theorem claim_C9_counterexample :
    (rag_answer (fun _ _ _ => []) (SimpleContextBuilder.default ℚ)
      (fun _ pack => pack) "q" 10 1800 [] []).chunks = [] := by
  decide

/-- **C9** (amended): the `ask.py` entry point raises its user-facing
`RuntimeError` exactly when retrieval produced zero nodes (passing the
nodes through unchanged otherwise); but `rag_answer` in
`src/rag/app/pipeline.py` performs no such check, and context packing of
an empty candidate list returns a zero-passage `ContextPack` without
error. -/
theorem claim_C9 (nodes : List NodeWithScore) :
    ((∃ e, askRetrieveCheck nodes = Except.error e) ↔ nodes = []) ∧
    (nodes = [] → askRetrieveCheck nodes = Except.error
      "No retrieved nodes. Index may be empty or not ingested yet.") ∧
    (nodes ≠ [] → askRetrieveCheck nodes = Except.ok nodes) ∧
    (∀ (query : String) (top_k token_budget : ℕ)
       (filters meta : List (String × PyVal))
       (cfg : SimpleContextBuilder ℚ),
      (rag_answer (fun _ _ _ => []) cfg (fun _ pack => pack) query top_k
        token_budget filters meta).chunks = []) := by
  have hbool : nodes.isEmpty = true ↔ nodes = [] := by
    cases nodes <;> simp
  refine ⟨⟨?_, ?_⟩, ?_, ?_, ?_⟩
  · rintro ⟨e, he⟩
    rw [askRetrieveCheck] at he
    by_cases h : nodes.isEmpty = true
    · exact hbool.1 h
    · rw [if_neg h] at he
      exact absurd he (by simp)
  · intro h
    exact ⟨_, by rw [askRetrieveCheck, if_pos (hbool.2 h)]⟩
  · intro h
    rw [askRetrieveCheck, if_pos (hbool.2 h)]
  · intro h
    rw [askRetrieveCheck,
      if_neg (fun hh => h (hbool.1 hh))]
  · intro query top_k token_budget filters meta cfg
    obtain ⟨costs, hlen, _, _, _⟩ :=
      buildLoop_spec cfg token_budget
        (pySortKeyDesc candidate_key []) 
        { chosen := [], citations := [], seen := [],
          tokens_used := _estimate_tokens "Context:\n" }
    have hempty : pySortKeyDesc candidate_key ([] : List (Candidate ℚ)) =
        [] := rfl
    simp only [rag_answer, SimpleContextBuilder.build, hempty, buildLoop]

/-- Sanitizing a list of floats is the identity. -/
theorem json_sanitizeList_rats (vec : List ℚ) :
    json_sanitizeList (vec.map PyVal.rat) = vec.map PyVal.rat := by
  induction vec with
  | nil => rfl
  | cons q qs ih => simp [json_sanitizeList, json_sanitize, ih]

/-- A chunk whose metadata is JSON-safe survives the
sanitize/serialize/parse round trip unchanged. -/
theorem chunk_roundtrip (ch : Chunk)
    (hm : JsonSafe (PyVal.dict ch.metadata)) :
    _chunk_from_dict (json_sanitize (_chunk_to_dict ch)) = some ch := by
  obtain ⟨cid, did, text, cidx, sc, ec, sh, sp, lang, md⟩ := ch
  have hmd : json_sanitizeDict md = md := by
    simpa [JsonSafe, json_sanitize] using hm
  cases sc <;> cases ec <;> cases sh <;> cases sp <;> cases lang <;>
    cases md <;>
    simp_all [_chunk_to_dict, _chunk_from_dict, json_sanitize,
      json_sanitizeDict, json_sanitizeList, reqStr, reqInt, optIntField,
      optStrField, metaField, pyGet, optIntVal, optStrVal, pyTruthy,
      List.find?]

/-- Float vector components parse back unchanged. -/
theorem vecFromVals_rats (vec : List ℚ) :
    vecFromVals (vec.map PyVal.rat) = some vec := by
  induction vec with
  | nil => rfl
  | cons q qs ih => simp [vecFromVals, ih]

/-- One saved row parses back to its (chunk, vector) pair when the chunk
metadata is JSON-safe. -/
theorem loadRow_roundtrip (ch : Chunk) (vec : List ℚ)
    (hm : JsonSafe (PyVal.dict ch.metadata)) :
    loadRow (json_sanitize (PyVal.dict
      [("chunk", _chunk_to_dict ch),
       ("vector", PyVal.list (vec.map PyVal.rat))])) = some (ch, vec) := by
  have houter : json_sanitize (PyVal.dict
      [("chunk", _chunk_to_dict ch),
       ("vector", PyVal.list (vec.map PyVal.rat))]) =
    PyVal.dict [("chunk", json_sanitize (_chunk_to_dict ch)),
      ("vector", PyVal.list (json_sanitizeList (vec.map PyVal.rat)))] := rfl
  rw [houter, json_sanitizeList_rats]
  simp [loadRow, List.find?, chunk_roundtrip ch hm, vecFromVals_rats]

/-- The row list written by `save` parses back pairwise. -/
theorem loadRows_save (ps : List (Chunk × List ℚ))
    (hsafe : ∀ p ∈ ps, JsonSafe (PyVal.dict p.1.metadata)) :
    loadRows (ps.map (fun p =>
      json_sanitize (PyVal.dict
        [("chunk", _chunk_to_dict p.1),
         ("vector", PyVal.list (p.2.map PyVal.rat))]))) = some ps := by
  induction ps with
  | nil => rfl
  | cons p rest ih =>
      simp only [List.map_cons, loadRows,
        loadRow_roundtrip p.1 p.2 (hsafe p (List.mem_cons_self _ _)),
        ih (fun q hq => hsafe q (List.mem_cons_of_mem p hq))]
      rfl

set_option maxRecDepth 40000 in
/-- **C8** (amended): for every store whose chunks and vectors are
parallel (equal length, i.e. a sequence of pairs) and whose chunk
metadata holds only JSON-safe values (no tuples and nothing
`json_sanitize` rewrites), saving and then loading reproduces the exact
ordered sequence of (chunk, vector) pairs. -/
theorem claim_C8 (store : JsonlVectorStore)
    (hlen : store.chunks.length = store.vectors.length)
    (hsafe : ∀ ch ∈ store.chunks, JsonSafe (PyVal.dict ch.metadata)) :
    storeLoad (storeSave store) = some (store.chunks, store.vectors) := by
  have hzip : ∀ p ∈ store.chunks.zip store.vectors,
      JsonSafe (PyVal.dict p.1.metadata) := by
    intro p hp
    exact hsafe p.1 (List.of_mem_zip hp).1
  rw [storeLoad, storeSave, loadRows_save _ hzip]
  simp only [Option.map_some']
  rw [List.map_fst_zip _ _ (le_of_eq hlen),
    List.map_snd_zip _ _ (ge_of_eq hlen)]

set_option maxRecDepth 40000 in
/-- **C8 counterexample**: a store whose single chunk carries a tuple
metadata value does not round-trip — `json_sanitize` rewrites the tuple
to a list on save, so the loaded chunk differs from the pre-save one. -/
theorem claim_C8_counterexample :
    storeLoad (storeSave ⟨[scenTupleChunk], [[1]]⟩) ≠
      some ([scenTupleChunk], [[(1 : ℚ)]]) ∧
    storeLoad (storeSave ⟨[scenTupleChunk], [[1]]⟩) =
      some ([⟨"c", "d", "t", 0, Option.none, Option.none, Option.none,
        Option.none, Option.none, [("t", PyVal.list [])]⟩], [[(1 : ℚ)]]) :=
  ⟨by decide, by decide⟩

set_option maxRecDepth 40000 in
/-- **C8 witness**: the amended round trip at a concrete JSON-safe
store. -/
theorem claim_C8_witness :
    (([scenSafeChunk] : List Chunk).length = ([[(1 : ℚ)]] :
      List (List ℚ)).length) ∧
    (∀ ch ∈ ([scenSafeChunk] : List Chunk),
      JsonSafe (PyVal.dict ch.metadata)) ∧
    storeLoad (storeSave ⟨[scenSafeChunk], [[(1 : ℚ)]]⟩) =
      some ([scenSafeChunk], [[(1 : ℚ)]]) :=
  ⟨by decide, by decide,
   claim_C8 ⟨[scenSafeChunk], [[(1 : ℚ)]]⟩ (by decide) (by decide)⟩

/-- Descending-sort insertion also preserves the per-key subsequences. -/
theorem pyInsertDesc_filter_key {α K : Type} [LinearOrder K] (k : α → K)
    (x : α) (l : List α) (v : K) :
    (pyInsert (fun a b => decide (k b < k a)) x l).filter
        (fun a => decide (k a = v)) =
      if k x = v then
        x :: l.filter (fun a => decide (k a = v))
      else l.filter (fun a => decide (k a = v)) := by
  induction l with
  | nil =>
      by_cases hxv : k x = v <;> simp [pyInsert, hxv]
  | cons y t ih =>
      by_cases hyx : k x < k y
      · rw [pyInsert, if_pos (by simpa using hyx)]
        by_cases hxv : k x = v
        · have hyv : ¬ (k y = v) := by
            intro h
            rw [hxv] at hyx
            rw [h] at hyx
            exact lt_irrefl v hyx
          simp [List.filter_cons, ih, hxv, hyv]
        · simp [List.filter_cons, ih, hxv]
      · rw [pyInsert, if_neg (by simpa using hyx)]
        by_cases hxv : k x = v <;> simp [List.filter_cons, hxv]

/-- Stability of the descending sort, phrased per key value. -/
theorem pySortKeyDesc_filter_key {α K : Type} [LinearOrder K] (k : α → K)
    (l : List α) (v : K) :
    (pySortKeyDesc k l).filter (fun a => decide (k a = v)) =
      l.filter (fun a => decide (k a = v)) := by
  induction l with
  | nil => rfl
  | cons x xs ih =>
      show (pyInsert _ x (pySortKeyDesc k xs)).filter _ = _
      rw [pyInsertDesc_filter_key k x (pySortKeyDesc k xs) v]
      by_cases hxv : k x = v <;> simp [List.filter_cons, hxv, ih]

/-- Elements cut off by `take` after a descending sort score no higher
than any kept element. -/
theorem sortDesc_take_optimal {α K : Type} [LinearOrder K] (k : α → K)
    (l : List α) (n : ℕ) :
    ∀ c ∈ l, c ∉ (pySortKeyDesc k l).take n →
      ∀ r ∈ (pySortKeyDesc k l).take n, k c ≤ k r := by
  intro c hc hcnot r hr
  have hsorted := pySortKeyDesc_sorted k l
  have hsplit : (pySortKeyDesc k l).take n ++ (pySortKeyDesc k l).drop n =
      pySortKeyDesc k l := List.take_append_drop n _
  have hcs : c ∈ pySortKeyDesc k l :=
    (pySort_mem _ l c).2 hc
  rw [← hsplit] at hcs hsorted
  rcases List.mem_append.1 hcs with h1 | h2
  · exact absurd h1 hcnot
  · exact (List.pairwise_append.1 hsorted).2.2 r hr c h2

/-- **C6** (amended): `search` returns `min(top_k, poolsize)` candidates
drawn exactly from the filter-allowed chunks scored by cosine similarity,
in descending score order, every excluded allowed chunk scoring no higher
than any returned one, with ties kept in insertion order (per-score-value
subsequences of the pool are preserved, the result being an initial
segment); the filter semantics is exact equality between
`metadata.get(key)` (`None` when the key is missing) and the filter value
— so a missing key or different value excludes the chunk except when the
filter value is itself `None`; a zero-norm vector's norm is treated as 1,
and similarity of an all-zero vector against anything is 0. -/
theorem claim_C6 (store : JsonlVectorStore) (qv : List ℚ) (top_k : ℕ)
    (filters : List (String × PyVal)) :
    (JsonlStore.search store qv top_k filters).length =
      min top_k (JsonlStore.searchPool store qv filters).length ∧
    (JsonlStore.search store qv top_k filters).Pairwise
      (fun a b => b.score ≤ a.score) ∧
    (∀ c ∈ JsonlStore.search store qv top_k filters,
      c ∈ JsonlStore.searchPool store qv filters) ∧
    (∀ c ∈ JsonlStore.searchPool store qv filters,
      c ∉ JsonlStore.search store qv top_k filters →
      ∀ r ∈ JsonlStore.search store qv top_k filters, c.score ≤ r.score) ∧
    (∀ v : ℝ, ∃ t, (JsonlStore.searchPool store qv filters).filter
        (fun c => decide (c.score = v)) =
      (JsonlStore.search store qv top_k filters).filter
        (fun c => decide (c.score = v)) ++ t) ∧
    (∀ c : Chunk, JsonlStore.allowedBy filters c = true ↔
      ∀ kv ∈ filters, pyGet c.metadata kv.1 = kv.2) ∧
    (∀ a : List ℚ, JsonlStore.normSq a = 0 → JsonlStore._norm a = 1) ∧
    (∀ a b : List ℚ, (∀ x ∈ a, x = 0) → JsonlStore._cosine a b = 0) := by
  have hs : JsonlStore.search store qv top_k filters =
      (pySortKeyDesc (fun c : Candidate ℝ => c.score)
        (JsonlStore.searchPool store qv filters)).take top_k := rfl
  refine ⟨?_, ?_, ?_, ?_, ?_, ?_, ?_, ?_⟩
  · rw [hs, List.length_take,
      show (pySortKeyDesc (fun c : Candidate ℝ => c.score)
          (JsonlStore.searchPool store qv filters)).length =
        (JsonlStore.searchPool store qv filters).length from
        pySort_length _ _]
  · rw [hs]
    exact ((pySortKeyDesc_sorted (fun c : Candidate ℝ => c.score)
      (JsonlStore.searchPool store qv filters)).sublist
      (List.take_sublist _ _))
  · intro c hc
    rw [hs] at hc
    exact (pySort_mem _ _ c).1 (List.take_subset _ _ hc)
  · intro c hc hcnot r hr
    rw [hs] at hcnot hr
    exact sortDesc_take_optimal (fun c : Candidate ℝ => c.score) _ top_k
      c hc hcnot r hr
  · intro v
    refine ⟨((pySortKeyDesc (fun c : Candidate ℝ => c.score)
        (JsonlStore.searchPool store qv filters)).drop top_k).filter
        (fun c => decide (c.score = v)), ?_⟩
    rw [hs, ← List.filter_append, List.take_append_drop]
    exact (pySortKeyDesc_filter_key
      (fun c : Candidate ℝ => c.score) _ v).symm
  · intro c
    simp [JsonlStore.allowedBy, List.all_eq_true, beq_iff_eq]
  · intro a h
    rw [JsonlStore._norm, h]
    simp
  · intro a b h
    have hdot : ∀ (b' : List ℚ), JsonlStore._dot a b' = 0 := by
      induction a with
      | nil => intro b'; rfl
      | cons x xs ih =>
          intro b'
          cases b' with
          | nil => rfl
          | cons y ys =>
              have hx : x = 0 := h x (List.mem_cons_self _ _)
              have ihy := ih (fun z hz => h z (List.mem_cons_of_mem x hz)) ys
              simp [JsonlStore._dot, hx]
              simpa [JsonlStore._dot] using ihy
    rw [JsonlStore._cosine, hdot b]
    simp

/-- A sum of squares over a list is nonnegative. -/
theorem listSqSum_nonneg (a : List ℝ) : 0 ≤ (a.map (fun x => x * x)).sum := by
  apply List.sum_nonneg
  intro x hx
  obtain ⟨y, _, rfl⟩ := List.mem_map.1 hx
  exact mul_self_nonneg y

/-- Cauchy–Schwarz for lists (the dot product runs over the zip, the
norms over the full lists, which only makes the right side larger). -/
theorem list_cauchy_schwarz :
    ∀ (a b : List ℝ),
      ((List.zipWith (fun x y => x * y) a b).sum) ^ 2 ≤
        (a.map (fun x => x * x)).sum * (b.map (fun x => x * x)).sum := by
  intro a
  induction a with
  | nil =>
      intro b
      simp
  | cons x xs ih =>
      intro b
      cases b with
      | nil =>
          simp
      | cons y ys =>
          have hsa := listSqSum_nonneg xs
          have hsb := listSqSum_nonneg ys
          have hih := ih ys
          simp only [List.zipWith_cons_cons, List.sum_cons, List.map_cons]
          set d := (List.zipWith (fun x y => x * y) xs ys).sum with hd
          set sa := (xs.map (fun x => x * x)).sum with hsa'
          set sb := (ys.map (fun x => x * x)).sum with hsb'
          have hu : (0 : ℝ) ≤ x * x * sb :=
            mul_nonneg (mul_self_nonneg x) hsb
          have hv : (0 : ℝ) ≤ y * y * sa :=
            mul_nonneg (mul_self_nonneg y) hsa
          have huv : (x * y * d) ^ 2 ≤ (x * x * sb) * (y * y * sa) := by
            nlinarith [mul_le_mul_of_nonneg_left hih (sq_nonneg (x * y))]
          have hsq : (2 * (x * y * d)) ^ 2 ≤
              (x * x * sb + y * y * sa) ^ 2 := by
            nlinarith [sq_nonneg (x * x * sb - y * y * sa), huv]
          have habs : 2 * (x * y * d) ≤ x * x * sb + y * y * sa := by
            rcases le_or_lt (2 * (x * y * d)) 0 with h | h
            · exact le_trans h (add_nonneg hu hv)
            · by_contra hcon
              push_neg at hcon
              have h2 : (0 : ℝ) <
                  2 * (x * y * d) + (x * x * sb + y * y * sa) := by
                linarith [add_nonneg hu hv]
              have h3 : (x * x * sb + y * y * sa) ^ 2 <
                  (2 * (x * y * d)) ^ 2 := by
                nlinarith [hcon, h2]
              linarith [hsq, h3]
          nlinarith [hih, habs]

/-- Casting the rational dot product to the reals. -/
theorem castZipMul :
    ∀ (a b : List ℚ),
      (((List.zipWith (fun x y => x * y) a b).sum : ℚ) : ℝ) =
        (List.zipWith (fun x y => x * y) (a.map (fun q => (q : ℝ)))
          (b.map (fun q => (q : ℝ)))).sum := by
  intro a
  induction a with
  | nil => intro b; simp
  | cons x xs ih =>
      intro b
      cases b with
      | nil => simp
      | cons y ys =>
          simp only [List.zipWith_cons_cons, List.sum_cons, List.map_cons]
          rw [Rat.cast_add, Rat.cast_mul, ih ys]
          simp [List.map_cons, List.zipWith_cons_cons, List.sum_cons]

/-- Casting the rational sum of squares to the reals. -/
theorem castSqSum (a : List ℚ) :
    (((a.map (fun x => x * x)).sum : ℚ) : ℝ) =
      ((a.map (fun q => (q : ℝ))).map (fun x => x * x)).sum := by
  induction a with
  | nil => simp
  | cons x xs ih =>
      simp only [List.map_cons, List.sum_cons]
      rw [Rat.cast_add, Rat.cast_mul, ih]
      simp [List.map_cons, List.sum_cons]

/-- The cosine of `retrieval.py` always lies in `[-1, 1]`
(Cauchy–Schwarz; the zero-norm branch returns 0). -/
theorem retrievalCosine_abs_le_one (a b : List ℚ) :
    |retrievalCosine a b| ≤ 1 := by
  simp only [retrievalCosine]
  split_ifs with h
  · simp
  · push_neg at h
    set saR : ℝ := (((a.map (fun x => x * x)).sum : ℚ) : ℝ) with hsaR
    set sbR : ℝ := (((b.map (fun x => x * x)).sum : ℚ) : ℝ) with hsbR
    set dotR : ℝ := (((List.zipWith (fun x y => x * y) a b).sum : ℚ) : ℝ)
      with hdotR
    have hsa0 : 0 ≤ saR := by
      rw [hsaR, castSqSum]
      exact listSqSum_nonneg _
    have hsb0 : 0 ≤ sbR := by
      rw [hsbR, castSqSum]
      exact listSqSum_nonneg _
    have hcs : dotR ^ 2 ≤ saR * sbR := by
      rw [hdotR, castZipMul, hsaR, castSqSum, hsbR, castSqSum]
      exact list_cauchy_schwarz (a.map (fun q => (q : ℝ)))
        (b.map (fun q => (q : ℝ)))
    have hna : 0 < Real.sqrt saR :=
      lt_of_le_of_ne (Real.sqrt_nonneg _) (Ne.symm h.1)
    have hnb : 0 < Real.sqrt sbR :=
      lt_of_le_of_ne (Real.sqrt_nonneg _) (Ne.symm h.2)
    have habs : |dotR| ≤ Real.sqrt saR * Real.sqrt sbR := by
      calc |dotR| = Real.sqrt (dotR ^ 2) := (Real.sqrt_sq_eq_abs dotR).symm
        _ ≤ Real.sqrt (saR * sbR) := Real.sqrt_le_sqrt hcs
        _ = Real.sqrt saR * Real.sqrt sbR := Real.sqrt_mul hsa0 _
    rw [abs_div]
    rw [div_le_one (by positivity)]
    calc |dotR| ≤ Real.sqrt saR * Real.sqrt sbR := habs
      _ = |Real.sqrt saR * Real.sqrt sbR| :=
        (abs_of_nonneg (by positivity)).symm

/-- Python `max` over a nonempty list returns one of its members. -/
theorem pyListMax_mem : ∀ (x : ℝ) (xs : List ℝ), xs.foldl max x ∈ x :: xs := by
  intro x xs
  induction xs generalizing x with
  | nil => simp
  | cons y ys ih =>
      have h := ih (max x y)
      rcases max_choice x y with hm | hm <;>
        rcases List.mem_cons.1 h with h' | h' <;>
        simp [List.foldl_cons, h', hm ▸ h'] <;>
        rw [← hm] <;> simp [h']

/-- Python `max` over a nonempty list bounds every member and is reached. -/
theorem pyListMax_le (l : List ℝ) (hne : l ≠ []) (c : ℝ)
    (h : ∀ x ∈ l, |x| ≤ c) : |pyListMax l| ≤ c := by
  cases l with
  | nil => exact absurd rfl hne
  | cons x xs =>
      have hm := pyListMax_mem x xs
      exact h _ (by simpa [pyListMax] using hm)

/-- The MMR objective is bounded by 1 in absolute value when the
similarities are cosines and `λ ∈ [0, 1]`. -/
theorem mmrValue_abs_le_one (lam : ℝ) (simq : ℕ → ℝ) (simm : ℕ → ℕ → ℝ)
    (sel : List ℕ) (i : ℕ) (hlam0 : 0 ≤ lam) (hlam1 : lam ≤ 1)
    (hsq : ∀ i, |simq i| ≤ 1) (hsm : ∀ i j, |simm i j| ≤ 1) :
    |mmrValue lam simq simm sel i| ≤ 1 := by
  rw [mmrValue]
  have hdiv : |(if sel.isEmpty then (0 : ℝ)
      else pyListMax (sel.map (fun j => simm i j)))| ≤ 1 := by
    split_ifs with h
    · simp
    · apply pyListMax_le
      · simp only [ne_eq, List.map_eq_nil_iff]
        intro hnil
        rw [hnil] at h
        exact h rfl
      · intro x hx
        obtain ⟨j, _, rfl⟩ := List.mem_map.1 hx
        exact hsm i j
  calc |lam * simq i - (1 - lam) *
        (if sel.isEmpty then (0 : ℝ)
         else pyListMax (sel.map (fun j => simm i j)))| ≤
      |lam * simq i| + |(1 - lam) *
        (if sel.isEmpty then (0 : ℝ)
         else pyListMax (sel.map (fun j => simm i j)))| := abs_sub _ _
    _ ≤ lam * 1 + (1 - lam) * 1 := by
        refine add_le_add ?_ ?_
        · rw [abs_mul, abs_of_nonneg hlam0]
          exact mul_le_mul_of_nonneg_left (hsq i) hlam0
        · rw [abs_mul, abs_of_nonneg (by linarith)]
          exact mul_le_mul_of_nonneg_left hdiv (by linarith)
    _ = 1 := by ring

/-- The running-best scan, started from a current best `b`, returns the
earliest strict improvement chain — the earliest-argmax semantics. -/
theorem mmrScanBest_from_some (val : ℕ → ℝ) :
    ∀ (rem : List ℕ) (b : ℕ),
      (mmrScanBest val rem (some b, val b)).1 =
        some (match argmaxE val rem with
          | Option.none => b
          | some m => if val b < val m then m else b) := by
  intro rem
  induction rem with
  | nil => intro b; rfl
  | cons i rest ih =>
      intro b
      rw [mmrScanBest]
      by_cases hbi : val b < val i
      · rw [if_pos hbi, ih i]
        cases hr : argmaxE val rest with
        | none => simp [argmaxE, hr, hbi]
        | some m =>
            by_cases him : val i < val m
            · simp [argmaxE, hr, him, if_pos (lt_trans hbi him)]
            · simp [argmaxE, hr, him, hbi]
      · rw [if_neg hbi, ih b]
        cases hr : argmaxE val rest with
        | none => simp [argmaxE, hr, hbi]
        | some m =>
            by_cases him : val i < val m
            · simp [argmaxE, hr, him]
            · have hbm : ¬ (val b < val m) := by
                intro hbm
                exact hbi (lt_of_lt_of_le hbm (le_of_not_lt him))
              simp [argmaxE, hr, him, hbi, hbm]

/-- Started from `best_i = None` and a floor below every value, the scan
computes the earliest argmax. -/
theorem mmrScanBest_eq_argmax (val : ℕ → ℝ) (rem : List ℕ) (B : ℝ)
    (hB : ∀ i ∈ rem, B < val i) :
    (mmrScanBest val rem (Option.none, B)).1 = argmaxE val rem := by
  cases rem with
  | nil => rfl
  | cons i rest =>
      rw [mmrScanBest, if_pos (hB i (List.mem_cons_self _ _)),
        mmrScanBest_from_some val rest i]
      cases hr : argmaxE val rest with
      | none => simp [argmaxE, hr]
      | some m =>
          simp only [argmaxE, hr]
          by_cases him : val i < val m <;> simp [him]

/-- Characterisation of `argmaxE` on a nonempty list: it returns a
maximum, and every element before it is strictly smaller. -/
theorem argmaxE_spec (val : ℕ → ℝ) :
    ∀ (rem : List ℕ), rem ≠ [] →
      ∃ l1 m l2, rem = l1 ++ m :: l2 ∧ argmaxE val rem = some m ∧
        (∀ j ∈ rem, val j ≤ val m) ∧ (∀ x ∈ l1, val x < val m) := by
  intro rem
  induction rem with
  | nil => intro h; exact absurd rfl h
  | cons i rest ih =>
      intro _
      by_cases hne : rest = []
      · subst hne
        exact ⟨[], i, [], by simp, by simp [argmaxE], by simp, by simp⟩
      · obtain ⟨l1, m, l2, heq, hm, hmax, hlt⟩ := ih hne
        by_cases him : val i < val m
        · refine ⟨i :: l1, m, l2, by rw [heq]; rfl, ?_, ?_, ?_⟩
          · simp [argmaxE, hm, him]
          · intro j hj
            rcases List.mem_cons.1 hj with rfl | hj'
            · exact le_of_lt him
            · exact hmax j hj'
          · intro x hx
            rcases List.mem_cons.1 hx with rfl | hx'
            · exact him
            · exact hlt x hx'
        · refine ⟨[], i, rest, by simp, ?_, ?_, by simp⟩
          · simp [argmaxE, hm, him]
          · intro j hj
            rcases List.mem_cons.1 hj with rfl | hj'
            · exact le_refl _
            · exact le_trans (hmax j hj') (le_of_not_lt him)

/-- `find?` over a decomposition whose front all fails the predicate. -/
theorem find?_decomp {α : Type} (pred : α → Bool) :
    ∀ (l1 : List α) (m : α) (l2 : List α),
      (∀ x ∈ l1, pred x = false) → pred m = true →
      (l1 ++ m :: l2).find? pred = some m := by
  intro l1
  induction l1 with
  | nil =>
      intro m l2 _ hm
      simp [List.find?, hm]
  | cons x t ih =>
      intro m l2 hfalse hm
      have hx : pred x = false := hfalse x (List.mem_cons_self _ _)
      simp only [List.cons_append, List.find?, hx]
      exact ih m l2 (fun z hz => hfalse z (List.mem_cons_of_mem x hz)) hm

/-- The spec-worded pick (first element attaining the maximum) agrees
with the earliest argmax. -/
theorem specPick_eq_argmax (val : ℕ → ℝ) (rem : List ℕ) :
    specPick val rem = argmaxE val rem := by
  cases hrem : rem with
  | nil => rfl
  | cons r rs =>
      obtain ⟨l1, m, l2, heq, hm, hmax, hlt⟩ :=
        argmaxE_spec val (r :: rs) (by simp)
      rw [hm, specPick, heq]
      refine find?_decomp _ l1 m l2 ?_ ?_
      · intro x hx
        have hmem : m ∈ r :: rs := by
          rw [heq]
          exact List.mem_append.2 (Or.inr (List.mem_cons_self _ _))
        rw [← heq]
        simp only [decide_eq_false_iff_not, not_forall]
        exact ⟨m, hmem, by push_neg; exact hlt x hx⟩
      · rw [← heq]
        simp only [decide_eq_true_eq]
        exact hmax

/-- With cosine-bounded similarities and `λ ∈ [0, 1]`, every MMR value
clears the `-1e9` floor of the scan. -/
theorem mmrValue_floor (lam : ℝ) (simq : ℕ → ℝ) (simm : ℕ → ℕ → ℝ)
    (sel : List ℕ) (hlam0 : 0 ≤ lam) (hlam1 : lam ≤ 1)
    (hsq : ∀ i, |simq i| ≤ 1) (hsm : ∀ i j, |simm i j| ≤ 1) (i : ℕ) :
    -((10 : ℝ) ^ (9 : ℕ)) < mmrValue lam simq simm sel i := by
  have h := mmrValue_abs_le_one lam simq simm sel i hlam0 hlam1 hsq hsm
  have h1 : -(1 : ℝ) ≤ mmrValue lam simq simm sel i := neg_le_of_abs_le h
  have h2 : -((10 : ℝ) ^ (9 : ℕ)) < -1 := by norm_num
  linarith

/-- The source loop (running-best scan) equals the spec-worded greedy
loop (argmax with earliest tie-break) for bounded similarities. -/
theorem mmrLoop_eq_spec (lam : ℝ) (simq : ℕ → ℝ) (simm : ℕ → ℕ → ℝ)
    (hlam0 : 0 ≤ lam) (hlam1 : lam ≤ 1)
    (hsq : ∀ i, |simq i| ≤ 1) (hsm : ∀ i j, |simm i j| ≤ 1) :
    ∀ (fuel : ℕ) (rem sel : List ℕ),
      mmrLoop lam simq simm fuel rem sel =
        mmrSpecLoop lam simq simm fuel rem sel := by
  intro fuel
  induction fuel with
  | zero => intro rem sel; rfl
  | succ n ih =>
      intro rem sel
      cases rem with
      | nil => rfl
      | cons r rs =>
          rw [mmrLoop, mmrSpecLoop,
            mmrScanBest_eq_argmax _ _ _
              (fun i _ => mmrValue_floor lam simq simm sel hlam0 hlam1
                hsq hsm i),
            specPick_eq_argmax]
          cases argmaxE (mmrValue lam simq simm sel) (r :: rs) with
          | none => rfl
          | some i => exact ih _ _

/-- Size, distinctness, and index-provenance invariants of the MMR loop
with bounded similarities. -/
theorem mmrLoop_props (lam : ℝ) (simq : ℕ → ℝ) (simm : ℕ → ℕ → ℝ)
    (hlam0 : 0 ≤ lam) (hlam1 : lam ≤ 1)
    (hsq : ∀ i, |simq i| ≤ 1) (hsm : ∀ i j, |simm i j| ≤ 1) :
    ∀ (fuel : ℕ) (rem sel : List ℕ), rem.Nodup → sel.Nodup →
      (∀ i ∈ sel, i ∉ rem) →
      (mmrLoop lam simq simm fuel rem sel).length =
        sel.length + min fuel rem.length ∧
      (mmrLoop lam simq simm fuel rem sel).Nodup ∧
      (∀ i ∈ mmrLoop lam simq simm fuel rem sel, i ∈ sel ∨ i ∈ rem) := by
  intro fuel
  induction fuel with
  | zero =>
      intro rem sel _ hsel _
      exact ⟨by simp [mmrLoop], by simpa [mmrLoop] using hsel,
        fun i hi => Or.inl (by simpa [mmrLoop] using hi)⟩
  | succ n ih =>
      intro rem sel hrem hsel hdisj
      cases rem with
      | nil =>
          exact ⟨by simp [mmrLoop], by simpa [mmrLoop] using hsel,
            fun i hi => Or.inl (by simpa [mmrLoop] using hi)⟩
      | cons r rs =>
          obtain ⟨l1, m, l2, heq, hm, _, _⟩ :=
            argmaxE_spec (mmrValue lam simq simm sel) (r :: rs) (by simp)
          have hmmem : m ∈ r :: rs := by
            rw [heq]
            exact List.mem_append.2 (Or.inr (List.mem_cons_self _ _))
          have hstep : mmrLoop lam simq simm (n + 1) (r :: rs) sel =
              mmrLoop lam simq simm n ((r :: rs).erase m) (sel ++ [m]) := by
            rw [mmrLoop,
              mmrScanBest_eq_argmax _ _ _
                (fun i _ => mmrValue_floor lam simq simm sel hlam0 hlam1
                  hsq hsm i), hm]
          have hmnotsel : m ∉ sel := fun hms => hdisj m hms hmmem
          have hsel' : (sel ++ [m]).Nodup := by
            simp [List.nodup_append, hsel, hmnotsel]
          have hrem' : ((r :: rs).erase m).Nodup := hrem.erase m
          have hdisj' : ∀ i ∈ sel ++ [m], i ∉ (r :: rs).erase m := by
            intro i hi hie
            rcases List.mem_append.1 hi with hi' | hi'
            · exact hdisj i hi' (List.mem_of_mem_erase hie)
            · have : i = m := by simpa using hi'
              subst this
              exact hrem.not_mem_erase hie
          obtain ⟨ihlen, ihnd, ihmem⟩ := ih _ _ hrem' hsel' hdisj'
          refine ⟨?_, by rwa [hstep], ?_⟩
          · rw [hstep, ihlen]
            have herlen : ((r :: rs).erase m).length = (r :: rs).length - 1 :=
              List.length_erase_of_mem hmmem
            simp only [List.length_append, List.length_cons,
              List.length_singleton, List.length_nil] at *
            omega
          · intro i hi
            rw [hstep] at hi
            rcases ihmem i hi with hi' | hi'
            · rcases List.mem_append.1 hi' with h2 | h2
              · exact Or.inl h2
              · have : i = m := by simpa using h2
                subst this
                exact Or.inr hmmem
            · exact Or.inr (List.mem_of_mem_erase hi')

/-- `argmaxE` never fails on a nonempty list. -/
theorem argmaxE_cons_isSome (val : ℕ → ℝ) (i : ℕ) (rest : List ℕ) :
    ∃ m, argmaxE val (i :: rest) = some m := by
  obtain ⟨_, m, _, _, hm, _, _⟩ := argmaxE_spec val (i :: rest) (by simp)
  exact ⟨m, hm⟩

/-- Unfolding of the descending stable sort on a cons cell. -/
theorem pySortKeyDesc_cons (val : ℕ → ℝ) (x : ℕ) (l : List ℕ) :
    pySortKeyDesc val (x :: l) =
      pyInsert (fun a b => decide (val b < val a)) x (pySortKeyDesc val l) :=
  rfl

/-- The stable descending sort of a duplicate-free list starts with the
earliest argmax, followed by the sort of the list with it removed. -/
theorem sortDesc_cons_argmax (val : ℕ → ℝ) :
    ∀ (rem : List ℕ), rem.Nodup → ∀ m, argmaxE val rem = some m →
      pySortKeyDesc val rem = m :: pySortKeyDesc val (rem.erase m) := by
  intro rem
  induction rem with
  | nil => intro _ m hm; exact absurd hm (by simp [argmaxE])
  | cons i rest ih =>
      intro hnd m hm
      rw [List.nodup_cons] at hnd
      cases hm2 : argmaxE val rest with
      | none =>
          have hrest : rest = [] := by
            cases rest with
            | nil => rfl
            | cons r rs =>
                obtain ⟨m'', hm''⟩ := argmaxE_cons_isSome val r rs
                rw [hm''] at hm2
                exact absurd hm2 (by simp)
          subst hrest
          have hmi : i = m := by
            simp [argmaxE] at hm
            exact hm
          subst hmi
          rw [List.erase_cons_head]
          rfl
      | some m' =>
          have hne : rest ≠ [] := by
            intro h
            rw [h] at hm2
            exact absurd hm2 (by simp [argmaxE])
          have hm'mem : m' ∈ rest := by
            obtain ⟨l1, m0, l2, heq0, hm0, _, _⟩ := argmaxE_spec val rest hne
            rw [hm0] at hm2
            have hmm0 : m0 = m' := Option.some.inj hm2
            subst hmm0
            rw [heq0]
            exact List.mem_append.2 (Or.inr (List.mem_cons_self _ _))
          have hineq : i ≠ m' := fun h => hnd.1 (h ▸ hm'mem)
          have hsortrest := ih hnd.2 m' hm2
          by_cases him : val i < val m'
          · have hmm : m = m' := by
              simp only [argmaxE, hm2] at hm
              rw [if_pos him] at hm
              exact (Option.some.inj hm).symm
            subst hmm
            have herase : (i :: rest).erase m = i :: rest.erase m := by
              simp [List.erase_cons, hineq]
            rw [herase, pySortKeyDesc_cons, hsortrest, pySortKeyDesc_cons]
            simp only [pyInsert, decide_eq_true_eq]
            rw [if_pos him]
          · have hmm : m = i := by
              simp only [argmaxE, hm2] at hm
              rw [if_neg him] at hm
              exact (Option.some.inj hm).symm
            subst hmm
            rw [List.erase_cons_head, pySortKeyDesc_cons, hsortrest]
            simp only [pyInsert, decide_eq_true_eq]
            rw [if_neg him]

/-- At `λ = 1` the MMR objective is query similarity alone. -/
theorem mmrValue_one (simq : ℕ → ℝ) (simm : ℕ → ℕ → ℝ) (sel : List ℕ) :
    mmrValue 1 simq simm sel = simq := by
  funext i
  simp [mmrValue]

/-- At `λ = 1` the loop produces exactly the first `fuel` elements of the
stable descending sort by query similarity. -/
theorem mmrLoop_lam1 (simq : ℕ → ℝ) (simm : ℕ → ℕ → ℝ)
    (hsq : ∀ i, |simq i| ≤ 1) (hsm : ∀ i j, |simm i j| ≤ 1) :
    ∀ (fuel : ℕ) (rem sel : List ℕ), rem.Nodup →
      mmrLoop 1 simq simm fuel rem sel =
        sel ++ (pySortKeyDesc simq rem).take fuel := by
  intro fuel
  induction fuel with
  | zero => intro rem sel _; simp [mmrLoop]
  | succ n ih =>
      intro rem sel hnd
      cases rem with
      | nil => simp [mmrLoop, pySortKeyDesc, pySort]
      | cons r rs =>
          obtain ⟨m, hm⟩ := argmaxE_cons_isSome
            (mmrValue 1 simq simm sel) r rs
          have hm' : argmaxE simq (r :: rs) = some m := by
            rw [← mmrValue_one simq simm sel]
            exact hm
          rw [mmrLoop,
            mmrScanBest_eq_argmax _ _ _
              (fun i _ => mmrValue_floor 1 simq simm sel zero_le_one
                (le_refl 1) hsq hsm i), hm]
          show mmrLoop 1 simq simm n ((r :: rs).erase m) (sel ++ [m]) =
            sel ++ (pySortKeyDesc simq (r :: rs)).take (n + 1)
          rw [ih ((r :: rs).erase m) (sel ++ [m]) (hnd.erase m),
            sortDesc_cons_argmax simq (r :: rs) hnd m hm',
            List.take_succ_cons, List.append_assoc]
          rfl

/-- C3: for every candidate list, every `k > 0`, and every `λ` in `[0,1]`
(embedding model configured), `mmr_select` returns exactly `min k n`
candidates at pairwise-distinct original indices; the selected index
sequence equals the spec-worded greedy loop (at each step pick the
unselected candidate maximising `λ·sim(query,i) − (1−λ)·max` pairwise
similarity to the already-selected, `0` when none selected, ties broken
by the earliest original index); and at `λ = 1` the output equals plain
top-k by query similarity. -/
theorem claim_C3 (em : String → List ℚ) (query : String)
    (candidates : List NodeWithScore) (k : ℕ) (lam : ℝ)
    (hk : 0 < k) (hlam0 : 0 ≤ lam) (hlam1 : lam ≤ 1) :
    (mmr_select (some em) query candidates k lam).length =
        min k candidates.length ∧
    (∃ sel : List ℕ, sel.Nodup ∧
      (∀ i ∈ sel, i < candidates.length) ∧
      mmr_select (some em) query candidates k lam =
        sel.map (fun i => candidates.getD i default) ∧
      sel = mmrSpecLoop lam (simqOf em query candidates)
        (simmOf em candidates) (min k candidates.length)
        (List.range candidates.length) []) ∧
    (lam = 1 → mmr_select (some em) query candidates k lam =
      ((pySortKeyDesc (simqOf em query candidates)
        (List.range candidates.length)).take k).map
        (fun i => candidates.getD i default)) := by
  have hsq : ∀ i, |simqOf em query candidates i| ≤ 1 := by
    intro i
    simp only [simqOf]
    exact retrievalCosine_abs_le_one _ _
  have hsm : ∀ i j, |simmOf em candidates i j| ≤ 1 := by
    intro i j
    simp only [simmOf]
    exact retrievalCosine_abs_le_one _ _
  by_cases hemp : candidates.isEmpty = true
  · have hc : candidates = [] := by
      cases candidates with
      | nil => rfl
      | cons a l => simp [List.isEmpty] at hemp
    subst hc
    have hres : mmr_select (some em) query [] k lam = [] := by
      simp [mmr_select]
    refine ⟨by simp [hres], ⟨[], by simp, by simp, by simp [hres], ?_⟩,
      fun _ => by simp [hres, pySortKeyDesc, pySort]⟩
    simp [mmrSpecLoop]
  · have hk0 : k ≠ 0 := Nat.pos_iff_ne_zero.mp hk
    have hguard : ¬ ((candidates.isEmpty || (k == 0)) = true) := by
      simp [hemp, hk0]
    have hms : mmr_select (some em) query candidates k lam =
        (mmrLoop lam (simqOf em query candidates) (simmOf em candidates)
          (min k candidates.length) (List.range candidates.length)
          []).map (fun i => candidates.getD i default) := by
      rw [mmr_select, if_neg hguard]
    obtain ⟨hlen, hnd, hmem⟩ := mmrLoop_props lam
      (simqOf em query candidates) (simmOf em candidates) hlam0 hlam1
      hsq hsm (min k candidates.length) (List.range candidates.length)
      [] (List.nodup_range _) List.nodup_nil (by simp)
    have hminm : min (min k candidates.length) candidates.length =
        min k candidates.length :=
      Nat.min_eq_left (Nat.min_le_right _ _)
    have hlen' : (mmrLoop lam (simqOf em query candidates)
        (simmOf em candidates) (min k candidates.length)
        (List.range candidates.length) []).length =
        min k candidates.length := by
      rw [hlen]
      simp [hminm]
    have hlenL : (pySortKeyDesc (simqOf em query candidates)
        (List.range candidates.length)).length = candidates.length := by
      simp only [pySortKeyDesc]
      rw [pySort_length, List.length_range]
    have htake : (pySortKeyDesc (simqOf em query candidates)
        (List.range candidates.length)).take (min k candidates.length) =
        (pySortKeyDesc (simqOf em query candidates)
          (List.range candidates.length)).take k := by
      rcases Nat.le_total k candidates.length with h | h
      · rw [Nat.min_eq_left h]
      · rw [Nat.min_eq_right h, List.take_of_length_le (le_of_eq hlenL),
          List.take_of_length_le (by rw [hlenL]; exact h)]
    refine ⟨by rw [hms, List.length_map]; exact hlen',
      ⟨mmrLoop lam (simqOf em query candidates) (simmOf em candidates)
        (min k candidates.length) (List.range candidates.length) [],
        hnd, ?_, hms, ?_⟩, ?_⟩
    · intro i hi
      rcases hmem i hi with h | h
      · exact absurd h (List.not_mem_nil i)
      · exact List.mem_range.mp h
    · exact mmrLoop_eq_spec lam _ _ hlam0 hlam1 hsq hsm
        (min k candidates.length) (List.range candidates.length) []
    · intro h1
      subst h1
      rw [hms, mmrLoop_lam1 _ _ hsq hsm (min k candidates.length)
        (List.range candidates.length) [] (List.nodup_range _),
        List.nil_append, htake]

/-- C3 witness: the hypotheses of `claim_C3` hold at a concrete input
(one candidate, `k = 1`, `λ = 1`, an embedding model returning the empty
vector), and there the output size equals `min 1 1 = 1`. -/
theorem claim_C3_witness :
    0 < 1 ∧ (0 : ℝ) ≤ 1 ∧ (1 : ℝ) ≤ 1 ∧
    (mmr_select (some (fun _ => ([] : List ℚ))) "q" [wNode] 1
      (1 : ℝ)).length = min 1 [wNode].length :=
  ⟨Nat.one_pos, zero_le_one, le_refl 1,
    (claim_C3 (fun _ => ([] : List ℚ)) "q" [wNode] 1 1 Nat.one_pos
      zero_le_one (le_refl 1)).1⟩

/-- C6 counterexample: a chunk whose metadata lacks the filter key
entirely is NOT excluded when the filter value is `None` — Python
evaluates `c.metadata.get(k) != v` as `None != None`, which is false, so
the chunk passes the filter and is returned by `search`. -/
theorem claim_C6_counterexample :
    pyGet scenTinyCand.chunk.metadata "k" = PyVal.none ∧
    (∀ kv ∈ scenTinyCand.chunk.metadata, kv.1 ≠ "k") ∧
    JsonlStore.allowedBy [("k", PyVal.none)] scenTinyCand.chunk = true ∧
    JsonlStore.search ⟨[scenTinyCand.chunk], [[1]]⟩ [1] 1
        [("k", PyVal.none)] =
      [⟨scenTinyCand.chunk, JsonlStore._cosine [1] [1],
        Option.none, []⟩] :=
  ⟨rfl, by simp [scenTinyCand], rfl, rfl⟩
